import Mathlib

/-!
Verification of the managed top-n / bottom-n state.

Shallow embedding of
src/rust/server/src/stream_op/managed_state/top_n/top_n_bottom_n_state.rs.

Keys (`OrderedRow`) form a total order; we model them as `Nat`.  Row payloads
are opaque to the algorithms and are modelled as `Nat` as well.  A Rust
`BTreeMap` is modelled as an association list whose keys are strictly
increasing; `mapInsert`, `mapErase` and `mapLookup` mirror `insert`, `remove`
and lookup of `BTreeMap`.  The persistent key-value store (the `Keyspace`) is
modelled as the sorted list of logical rows its ascending scan returns, and an
atomic `ingest_batch` is modelled by `applyWrites`.  `debug_assert!` failures,
`unreachable!()` and `Option::unwrap` panics are modelled by returning an error
of type `PanicKind`.
-/

/-- A Rust `BTreeMap` as a sorted association list: `insert` (replacing an
existing binding while keeping keys sorted). -/
def mapInsert {α : Type} (k : Nat) (v : α) : List (Nat × α) → List (Nat × α)
  | [] => [(k, v)]
  | (k₁, v₁) :: t =>
    if k < k₁ then (k, v) :: (k₁, v₁) :: t
    else if k = k₁ then (k, v) :: t
    else (k₁, v₁) :: mapInsert k v t

/-- `BTreeMap::remove`: drop the binding of `k` (sorted lists bind each key at
most once). -/
def mapErase {α : Type} (k : Nat) : List (Nat × α) → List (Nat × α)
  | [] => []
  | (k₁, v₁) :: t => if k = k₁ then t else (k₁, v₁) :: mapErase k t

/-- `BTreeMap::get`. -/
def mapLookup {α : Type} (k : Nat) : List (Nat × α) → Option α
  | [] => none
  | (k₁, v₁) :: t => if k = k₁ then some v₁ else mapLookup k t

/-- The key list of a map. -/
def keys {α : Type} (l : List (Nat × α)) : List Nat := l.map Prod.fst

/-- Strictly-increasing-keys predicate: the structural invariant of the
`BTreeMap` model. -/
def PWk {α : Type} (l : List (Nat × α)) : Prop :=
  l.Pairwise (fun a b => a.1 < b.1)

instance {α : Type} (l : List (Nat × α)) : Decidable (PWk l) := by
  unfold PWk
  infer_instance

deriving instance DecidableEq for Except

/-- Modelled from the spec: the Delta Tracker entry type (`FlushStatus` from
`flush_status.rs`, which is not part of the provided sources).  Spec section
4.1: a delta is Insert(row), Delete, or Upsert(row); the source calls Upsert
`DeleteInsert`. -/
inductive FlushStatus : Type
  | Insert : Nat → FlushStatus
  | Delete : FlushStatus
  | DeleteInsert : Nat → FlushStatus
deriving DecidableEq, Repr

/-- The sorted Delta Tracker. -/
abbrev Buf := List (Nat × FlushStatus)

/-- A sorted cache / storage scan. -/
abbrev SMap := List (Nat × Nat)

/-- Modelled from the spec: `FlushStatus::do_insert` collapse table (spec
section 4.1, insert column): none ↦ Insert, Insert ↦ Insert (overwrite),
Delete ↦ Upsert, Upsert ↦ Upsert (overwrite). -/
def FlushStatus.do_insert (k : Nat) (v : Nat) (b : Buf) : Buf :=
  match mapLookup k b with
  | none => mapInsert k (FlushStatus.Insert v) b
  | some (FlushStatus.Insert _) => mapInsert k (FlushStatus.Insert v) b
  | some FlushStatus.Delete => mapInsert k (FlushStatus.DeleteInsert v) b
  | some (FlushStatus.DeleteInsert _) => mapInsert k (FlushStatus.DeleteInsert v) b

/-- Modelled from the spec: `FlushStatus::do_delete` collapse table (spec
section 4.1, delete column): none ↦ Delete, Insert ↦ removed (cancels),
Delete ↦ Delete, Upsert ↦ Delete. -/
def FlushStatus.do_delete (k : Nat) (b : Buf) : Buf :=
  match mapLookup k b with
  | none => mapInsert k FlushStatus.Delete b
  | some (FlushStatus.Insert _) => mapErase k b
  | some FlushStatus.Delete => mapInsert k FlushStatus.Delete b
  | some (FlushStatus.DeleteInsert _) => mapInsert k FlushStatus.Delete b

/-- Modelled from the spec: `FlushStatus::into_option` (used by `flush`):
Insert/Upsert carry the row to write, Delete becomes a tombstone. -/
def FlushStatus.into_option : FlushStatus → Option Nat
  | FlushStatus.Insert r => some r
  | FlushStatus.Delete => none
  | FlushStatus.DeleteInsert r => some r

/-- Panic / abort outcomes of the modelled operations: `assertFail` is a
`debug_assert!` violation, `underflow` a `usize` subtraction overflow,
`mergePanic` the `unreachable!()` arm of `scan_and_merge`, `emptyPop` the
`unwrap` of `last_key_value`/`first_key_value` on two empty caches, and
`valueUnwrap` the `value.unwrap()` in `pop_top_element`/`pop_bottom_element`. -/
inductive PanicKind : Type
  | assertFail | underflow | mergePanic | emptyPop | valueUnwrap
deriving DecidableEq, Repr

/-- `ManagedTopNBottomNState` (lines 23-42).  `storage` stands for the rows
the keyspace scan returns (the persistent store's content for this
partition), in ascending key order; the serializers and the keyspace handle
carry no algorithmic content and are omitted. -/
structure ManagedTopNBottomNState : Type where
  top_n : SMap
  bottom_n : SMap
  flush_buffer : Buf
  total_count : Int
  top_n_count : Option Nat
  bottom_n_count : Option Nat
  storage : SMap
deriving DecidableEq, Repr

namespace ManagedTopNBottomNState

/-- `new` (lines 45-63): empty caches, empty tracker, recovered count; the
`cache_size` hint seeds both retain limits. -/
def new (cache_size : Option Nat) (total_count : Nat) (storage : SMap) :
    ManagedTopNBottomNState :=
  ⟨[], [], [], (total_count : Int), cache_size, cache_size, storage⟩

/-- `is_dirty` (lines 69-71). -/
def is_dirty (s : ManagedTopNBottomNState) : Bool :=
  !s.flush_buffer.isEmpty

/-- `retain_top_n` (lines 74-78): pop the smallest entry of the top cache
while it holds more than `n` entries. -/
def retain_top_n_map (n : Nat) : SMap → SMap
  | [] => []
  | p :: t => if n < t.length + 1 then retain_top_n_map n t else p :: t

/-- `retain_bottom_n` (lines 81-85): pop the largest entry of the bottom
cache while it holds more than `n` entries. -/
def retain_bottom_n_map (n : Nat) (m : SMap) : SMap :=
  if _h : n < m.length then retain_bottom_n_map n m.dropLast else m
termination_by m.length
decreasing_by
  rw [List.length_dropLast]
  omega

/-- `retain_top_n` applied to the state. -/
def retain_top_n (s : ManagedTopNBottomNState) (n : Nat) :
    ManagedTopNBottomNState :=
  { s with top_n := retain_top_n_map n s.top_n }

/-- `retain_bottom_n` applied to the state. -/
def retain_bottom_n (s : ManagedTopNBottomNState) (n : Nat) :
    ManagedTopNBottomNState :=
  { s with bottom_n := retain_bottom_n_map n s.bottom_n }

/-- `retain_both_n` (lines 87-94). -/
def retain_both_n (s : ManagedTopNBottomNState) : ManagedTopNBottomNState :=
  let s₁ := match s.top_n_count with
    | some n => s.retain_top_n n
    | none => s
  match s₁.bottom_n_count with
  | some n => s₁.retain_bottom_n n
  | none => s₁

/-- `top_element` (lines 126-134): `None` when `total_count == 0`, otherwise
the last entry of the top cache, falling back to the bottom cache. -/
def top_element (s : ManagedTopNBottomNState) : Option (Nat × Nat) :=
  if s.total_count = 0 then none
  else if s.top_n.isEmpty then s.bottom_n.getLast?
  else s.top_n.getLast?

/-- `bottom_element` (lines 136-144). -/
def bottom_element (s : ManagedTopNBottomNState) : Option (Nat × Nat) :=
  if s.total_count = 0 then none
  else if s.bottom_n.isEmpty then s.top_n.head?
  else s.bottom_n.head?

/-- The cache-choice rule of `insert` (lines 150-163), true meaning the top
cache: when the top cache is strictly larger, compare against its minimum
(`first_key_value`); otherwise send the key to the top cache exactly when the
bottom cache is empty or its maximum (`last_key_value`) is at most the key.
The `head?`-is-`none` alternative of the first branch cannot occur (that
branch requires a non-empty top cache); any value works there. -/
def insert_chooses_top (s : ManagedTopNBottomNState) (k : Nat) : Bool :=
  if s.bottom_n.length < s.top_n.length then
    match s.top_n.head? with
    | some kv => decide (kv.1 < k)
    | none => true
  else
    s.bottom_n.isEmpty ||
      (match s.bottom_n.getLast? with
       | some kv => decide (kv.1 ≤ k)
       | none => true)

/-- `insert` (lines 146-167): choose the cache by the size / boundary rule of
the source, insert there, record the delta, bump the count. -/
def insert (s : ManagedTopNBottomNState) (k : Nat) (v : Nat) :
    ManagedTopNBottomNState :=
  if s.insert_chooses_top k then
    { s with top_n := mapInsert k v s.top_n,
             flush_buffer := FlushStatus.do_insert k v s.flush_buffer,
             total_count := s.total_count + 1 }
  else
    { s with bottom_n := mapInsert k v s.bottom_n,
             flush_buffer := FlushStatus.do_insert k v s.flush_buffer,
             total_count := s.total_count + 1 }

/-- The `while` loop of `scan_and_merge` (lines 189-195): advance the delta
cursor past keys strictly below the storage key. -/
def dropLt (ks : Nat) : Buf → Buf
  | [] => []
  | (kb, st) :: t => if kb < ks then dropLt ks t else (kb, st) :: t

/-- The `insert_process` closure of `scan_and_merge` (lines 186-218), with the
peekable delta iterator made explicit as the returned suffix of the tracker.
`none` models the `unreachable!()` panic of the `Ordering::Less` arm.  The
`Ordering::Greater` arm advances the cursor and abandons the storage entry,
exactly as the source loop does. -/
def insertProcess : SMap → SMap → Buf → Option (SMap × Buf)
  | cache, [], buf => some (cache, buf)
  | cache, (ks, vs) :: rest, buf =>
    match dropLt ks buf with
    | [] => insertProcess (mapInsert ks vs cache) rest []
    | (kb, st) :: bt =>
      if ks = kb then
        match st with
        | FlushStatus.Delete => insertProcess cache rest ((kb, st) :: bt)
        | FlushStatus.Insert r =>
            insertProcess (mapInsert ks r cache) rest ((kb, st) :: bt)
        | FlushStatus.DeleteInsert r =>
            insertProcess (mapInsert ks r cache) rest ((kb, st) :: bt)
      else if kb < ks then insertProcess cache rest bt
      else none

/-- `scan_and_merge` (lines 183-231): scan all rows, split at the midpoint,
merge the first half into the bottom cache and the second half into the top
cache, threading the delta cursor across both halves. -/
def scan_and_merge (s : ManagedTopNBottomNState) :
    Except PanicKind ManagedTopNBottomNState :=
  let kv := s.storage
  let part1 := kv.take (kv.length / 2)
  let part2 := kv.drop (kv.length / 2)
  match insertProcess s.bottom_n part1 s.flush_buffer with
  | none => Except.error PanicKind.mergePanic
  | some (b₁, buf₁) =>
    match insertProcess s.top_n part2 buf₁ with
    | none => Except.error PanicKind.mergePanic
    | some (t₁, _) => Except.ok { s with bottom_n := b₁, top_n := t₁ }

/-- `delete` (lines 169-180): remove the key from both caches, assert it was
cached, record the delta, decrement the count, and reconcile from storage when
both caches drained while rows remain.  The returned row is
`prev_top_n_entry` only, exactly as in the source. -/
def delete (s : ManagedTopNBottomNState) (k : Nat) :
    Except PanicKind (ManagedTopNBottomNState × Option Nat) :=
  let pt := mapLookup k s.top_n
  let pb := mapLookup k s.bottom_n
  if pt = none ∧ pb = none then Except.error PanicKind.assertFail
  else if s.total_count ≤ 0 then Except.error PanicKind.underflow
  else
    let s₁ : ManagedTopNBottomNState :=
      { s with top_n := mapErase k s.top_n,
               bottom_n := mapErase k s.bottom_n,
               flush_buffer := FlushStatus.do_delete k s.flush_buffer,
               total_count := s.total_count - 1 }
    if s₁.top_n = [] ∧ s₁.bottom_n = [] ∧ 0 < s₁.total_count then
      match s₁.scan_and_merge with
      | Except.error e => Except.error e
      | Except.ok s₂ => Except.ok (s₂, pt)
    else Except.ok (s₁, pt)

/-- `pop_top_element` (lines 96-109): take the largest entry of the top cache,
falling back to the bottom cache, delete it, and unwrap the returned row. -/
def pop_top_element (s : ManagedTopNBottomNState) :
    Except PanicKind (ManagedTopNBottomNState × Option (Nat × Nat)) :=
  if s.total_count = 0 then Except.ok (s, none)
  else
    let cache := if s.top_n.isEmpty then s.bottom_n else s.top_n
    match cache.getLast? with
    | none => Except.error PanicKind.emptyPop
    | some (k, _) =>
      match s.delete k with
      | Except.error e => Except.error e
      | Except.ok (s₁, value) =>
        match value with
        | none => Except.error PanicKind.valueUnwrap
        | some v => Except.ok (s₁, some (k, v))

/-- `pop_bottom_element` (lines 111-124). -/
def pop_bottom_element (s : ManagedTopNBottomNState) :
    Except PanicKind (ManagedTopNBottomNState × Option (Nat × Nat)) :=
  if s.total_count = 0 then Except.ok (s, none)
  else
    let cache := if s.bottom_n.isEmpty then s.top_n else s.bottom_n
    match cache.head? with
    | none => Except.error PanicKind.emptyPop
    | some (k, _) =>
      match s.delete k with
      | Except.error e => Except.error e
      | Except.ok (s₁, value) =>
        match value with
        | none => Except.error PanicKind.valueUnwrap
        | some v => Except.ok (s₁, some (k, v))

/-- `fill_in_cache` (lines 270-282): assert the tracker is clean, then split
the full storage scan at the midpoint, inserting the first half into the
bottom cache and the second half into the top cache. -/
def fill_in_cache (s : ManagedTopNBottomNState) :
    Option ManagedTopNBottomNState :=
  if s.is_dirty then none
  else
    let kv := s.storage
    let part1 := kv.take (kv.length / 2)
    let part2 := kv.drop (kv.length / 2)
    some { s with
      bottom_n := part1.foldl (fun m kv => mapInsert kv.1 kv.2 m) s.bottom_n,
      top_n := part2.foldl (fun m kv => mapInsert kv.1 kv.2 m) s.top_n }

/-- The store's atomic `ingest_batch` contract: a `some` value upserts the
row, a `none` value is a tombstone deleting it. -/
def applyWrites (st : SMap) (writes : List (Nat × Option Nat)) : SMap :=
  writes.foldl
    (fun m w =>
      match w.2 with
      | some v => mapInsert w.1 v m
      | none => mapErase w.1 m)
    st

/-- `flush` (lines 286-323).  The boolean argument is the outcome of the
store's `ingest_batch` call; the components of the result are the state after
the call returns, whether it returned `Ok`, and the batch submitted to the
store (empty when the not-dirty early return fires).  Note the source drains
`flush_buffer` with `std::mem::take` before awaiting the store, so the
tracker is empty afterwards even when the store call fails. -/
def flush (s : ManagedTopNBottomNState) (store_ok : Bool) :
    ManagedTopNBottomNState × Bool × List (Nat × Option Nat) :=
  if s.flush_buffer.isEmpty then (s, true, [])
  else
    let writes := s.flush_buffer.map (fun e => (e.1, e.2.into_option))
    if store_ok then
      ({ s with flush_buffer := [],
                storage := applyWrites s.storage writes }, true, writes)
    else
      ({ s with flush_buffer := [] }, false, writes)

end ManagedTopNBottomNState

/-! ## Basic lemmas about the sorted-map model -/

theorem mapInsert_cons {α : Type} (k : Nat) (v : α) (k₁ : Nat) (v₁ : α)
    (t : List (Nat × α)) :
    mapInsert k v ((k₁, v₁) :: t) =
      if k < k₁ then (k, v) :: (k₁, v₁) :: t
      else if k = k₁ then (k, v) :: t
      else (k₁, v₁) :: mapInsert k v t := rfl

theorem mapErase_cons {α : Type} (k k₁ : Nat) (v₁ : α) (t : List (Nat × α)) :
    mapErase k ((k₁, v₁) :: t) =
      if k = k₁ then t else (k₁, v₁) :: mapErase k t := rfl

theorem mapLookup_cons {α : Type} (k k₁ : Nat) (v₁ : α) (t : List (Nat × α)) :
    mapLookup k ((k₁, v₁) :: t) =
      if k = k₁ then some v₁ else mapLookup k t := rfl

theorem mem_mapInsert {α : Type} {k : Nat} {v : α} {p : Nat × α} :
    ∀ {l : List (Nat × α)}, p ∈ mapInsert k v l → p = (k, v) ∨ p ∈ l := by
  intro l
  induction l with
  | nil => intro h; simpa [mapInsert] using h
  | cons a t ih =>
    obtain ⟨a₁, a₂⟩ := a
    intro h
    rw [mapInsert_cons] at h
    by_cases h₁ : k < a₁
    · rw [if_pos h₁] at h
      rcases List.mem_cons.mp h with h' | h'
      · exact Or.inl h'
      · exact Or.inr h'
    · by_cases h₂ : k = a₁
      · rw [if_neg h₁, if_pos h₂] at h
        rcases List.mem_cons.mp h with h' | h'
        · exact Or.inl h'
        · exact Or.inr (List.mem_cons_of_mem _ h')
      · rw [if_neg h₁, if_neg h₂] at h
        rcases List.mem_cons.mp h with h' | h'
        · exact Or.inr (by rw [h']; exact List.mem_cons_self _ _)
        · rcases ih h' with h'' | h''
          · exact Or.inl h''
          · exact Or.inr (List.mem_cons_of_mem _ h'')

theorem pw_mapInsert {α : Type} {k : Nat} {v : α} :
    ∀ {l : List (Nat × α)}, PWk l → PWk (mapInsert k v l) := by
  intro l
  induction l with
  | nil => intro _; simp [mapInsert, PWk]
  | cons a t ih =>
    obtain ⟨a₁, a₂⟩ := a
    intro h
    rw [PWk, List.pairwise_cons] at h
    obtain ⟨ha, ht⟩ := h
    rw [mapInsert_cons]
    by_cases h₁ : k < a₁
    · rw [if_pos h₁]
      rw [PWk, List.pairwise_cons]
      refine ⟨?_, List.pairwise_cons.mpr ⟨ha, ht⟩⟩
      intro b hb
      rcases List.mem_cons.mp hb with hb' | hb'
      · rw [hb']; exact h₁
      · exact lt_trans h₁ (ha b hb')
    · by_cases h₂ : k = a₁
      · rw [if_neg h₁, if_pos h₂]
        rw [PWk, List.pairwise_cons]
        refine ⟨?_, ht⟩
        intro b hb
        rw [h₂]
        exact ha b hb
      · rw [if_neg h₁, if_neg h₂]
        rw [PWk, List.pairwise_cons]
        refine ⟨?_, ih ht⟩
        intro b hb
        rcases mem_mapInsert hb with hb' | hb'
        · rw [hb']; simp; omega
        · exact ha b hb'

theorem mapErase_sublist {α : Type} (k : Nat) :
    ∀ (l : List (Nat × α)), (mapErase k l).Sublist l := by
  intro l
  induction l with
  | nil => simp [mapErase]
  | cons a t ih =>
    obtain ⟨a₁, a₂⟩ := a
    rw [mapErase_cons]
    by_cases h : k = a₁
    · rw [if_pos h]
      exact List.sublist_cons_self _ t
    · rw [if_neg h]
      exact List.Sublist.cons₂ _ ih

theorem pw_mapErase {α : Type} {k : Nat} {l : List (Nat × α)} (h : PWk l) :
    PWk (mapErase k l) :=
  List.Pairwise.sublist (mapErase_sublist k l) h

theorem mem_mapErase {α : Type} {k : Nat} {p : Nat × α} :
    ∀ {l : List (Nat × α)}, PWk l → p ∈ mapErase k l → p ∈ l ∧ p.1 ≠ k := by
  intro l
  induction l with
  | nil => intro _ h; simp [mapErase] at h
  | cons a t ih =>
    obtain ⟨a₁, a₂⟩ := a
    intro hpw h
    rw [PWk, List.pairwise_cons] at hpw
    obtain ⟨ha, ht⟩ := hpw
    rw [mapErase_cons] at h
    by_cases h₁ : k = a₁
    · rw [if_pos h₁] at h
      refine ⟨List.mem_cons_of_mem _ h, ?_⟩
      have := ha p h
      simp at this ⊢
      omega
    · rw [if_neg h₁] at h
      rcases List.mem_cons.mp h with h' | h'
      · refine ⟨by rw [h']; exact List.mem_cons_self _ _, ?_⟩
        rw [h']
        simp
        intro hc
        exact h₁ hc.symm
      · rcases ih ht h' with ⟨hm, hne⟩
        exact ⟨List.mem_cons_of_mem _ hm, hne⟩

theorem head_le_of_pw {α : Type} {l : List (Nat × α)} {m p : Nat × α}
    (h : PWk l) (hm : l.head? = some m) (hp : p ∈ l) : m.1 ≤ p.1 := by
  cases l with
  | nil => simp at hm
  | cons a t =>
    rw [List.head?_cons, Option.some.injEq] at hm
    subst hm
    rw [PWk, List.pairwise_cons] at h
    rcases List.mem_cons.mp hp with h' | h'
    · rw [h']
    · exact le_of_lt (h.1 p h')

theorem le_getLast_of_pw {α : Type} {m p : Nat × α} :
    ∀ {l : List (Nat × α)}, PWk l → l.getLast? = some m → p ∈ l → p.1 ≤ m.1 := by
  intro l
  induction l with
  | nil => intro _ hm; simp at hm
  | cons a t ih =>
    intro h hm hp
    rw [PWk, List.pairwise_cons] at h
    cases t with
    | nil =>
      simp at hm hp
      rw [hp, ← hm]
    | cons b u =>
      rw [List.getLast?_cons_cons] at hm
      rcases List.mem_cons.mp hp with h' | h'
      · have hmm : m ∈ b :: u := List.mem_of_mem_getLast? hm
        have := h.1 m hmm
        rw [h']
        exact le_of_lt this
      · exact ih h.2 hm h'

theorem mapLookup_none_iff {α : Type} {k : Nat} :
    ∀ {l : List (Nat × α)}, mapLookup k l = none ↔ ∀ p ∈ l, p.1 ≠ k := by
  intro l
  induction l with
  | nil => simp [mapLookup]
  | cons a t ih =>
    obtain ⟨a₁, a₂⟩ := a
    rw [mapLookup_cons]
    by_cases h : k = a₁
    · simp [h]
    · rw [if_neg h, ih]
      constructor
      · intro hall p hp
        rcases List.mem_cons.mp hp with h' | h'
        · rw [h']; simp; intro hc; exact h hc.symm
        · exact hall p h'
      · intro hall p hp
        exact hall p (List.mem_cons_of_mem _ hp)

theorem mem_of_mapLookup {α : Type} {k : Nat} {v : α} :
    ∀ {l : List (Nat × α)}, mapLookup k l = some v → (k, v) ∈ l := by
  intro l
  induction l with
  | nil => intro h; simp [mapLookup] at h
  | cons a t ih =>
    obtain ⟨a₁, a₂⟩ := a
    intro h
    rw [mapLookup_cons] at h
    by_cases h₁ : k = a₁
    · rw [if_pos h₁] at h
      rw [Option.some.injEq] at h
      rw [h₁, h]
      exact List.mem_cons_self _ _
    · rw [if_neg h₁] at h
      exact List.mem_cons_of_mem _ (ih h)

theorem mapLookup_mapInsert_self {α : Type} {k : Nat} {v : α} :
    ∀ {l : List (Nat × α)}, mapLookup k (mapInsert k v l) = some v := by
  intro l
  induction l with
  | nil => simp [mapInsert, mapLookup]
  | cons a t ih =>
    obtain ⟨a₁, a₂⟩ := a
    rw [mapInsert_cons]
    by_cases h₁ : k < a₁
    · rw [if_pos h₁, mapLookup_cons, if_pos rfl]
    · by_cases h₂ : k = a₁
      · rw [if_neg h₁, if_pos h₂, mapLookup_cons, if_pos rfl]
      · rw [if_neg h₁, if_neg h₂, mapLookup_cons, if_neg h₂]
        exact ih

theorem mapLookup_mapInsert_ne {α : Type} {j k : Nat} {v : α} (hne : j ≠ k) :
    ∀ {l : List (Nat × α)}, mapLookup j (mapInsert k v l) = mapLookup j l := by
  intro l
  induction l with
  | nil => simp [mapInsert, mapLookup, hne]
  | cons a t ih =>
    obtain ⟨a₁, a₂⟩ := a
    rw [mapInsert_cons]
    by_cases h₁ : k < a₁
    · rw [if_pos h₁, mapLookup_cons, if_neg hne]
    · by_cases h₂ : k = a₁
      · rw [if_neg h₁, if_pos h₂, mapLookup_cons, if_neg hne,
          mapLookup_cons, if_neg (h₂ ▸ hne)]
      · rw [if_neg h₁, if_neg h₂, mapLookup_cons, mapLookup_cons]
        by_cases h₃ : j = a₁
        · rw [if_pos h₃, if_pos h₃]
        · rw [if_neg h₃, if_neg h₃]
          exact ih

theorem mapLookup_mapErase_ne {α : Type} {j k : Nat} (hne : j ≠ k) :
    ∀ {l : List (Nat × α)}, PWk l → mapLookup j (mapErase k l) = mapLookup j l := by
  intro l
  induction l with
  | nil => intro _; simp [mapErase]
  | cons a t ih =>
    obtain ⟨a₁, a₂⟩ := a
    intro hpw
    rw [PWk, List.pairwise_cons] at hpw
    rw [mapErase_cons]
    by_cases h₁ : k = a₁
    · rw [if_pos h₁, mapLookup_cons, if_neg (h₁ ▸ hne)]
    · rw [if_neg h₁, mapLookup_cons, mapLookup_cons]
      by_cases h₂ : j = a₁
      · rw [if_pos h₂, if_pos h₂]
      · rw [if_neg h₂, if_neg h₂]
        exact ih hpw.2

theorem mapLookup_mapErase_self {α : Type} {k : Nat} :
    ∀ {l : List (Nat × α)}, PWk l → mapLookup k (mapErase k l) = none := by
  intro l
  induction l with
  | nil => intro _; simp [mapErase, mapLookup]
  | cons a t ih =>
    obtain ⟨a₁, a₂⟩ := a
    intro hpw
    rw [PWk, List.pairwise_cons] at hpw
    rw [mapErase_cons]
    by_cases h₁ : k = a₁
    · rw [if_pos h₁, mapLookup_none_iff]
      intro p hp
      have := hpw.1 p hp
      omega
    · rw [if_neg h₁, mapLookup_cons, if_neg h₁]
      exact ih hpw.2

/-! ## Concrete states used as failing inputs and witnesses -/

/-- A state whose storage holds the single row (2, 20) while the Delta
Tracker holds a pending insert at the larger key 10: both inputs sorted. -/
def mergeLessState : ManagedTopNBottomNState :=
  ⟨[], [], [(10, FlushStatus.Insert 30)], 1, none, none, [(2, 20)]⟩

/-- A dirty state: one pending insert of row 10 at key 1, nothing cached. -/
def dirtyFlushState : ManagedTopNBottomNState :=
  ⟨[], [], [(1, FlushStatus.Insert 10)], 1, none, none, []⟩

/-- A state whose storage scan is empty while the Delta Tracker holds a
pending insert at key 2 (a pure in-memory insert not yet flushed). -/
def droppedDeltaState : ManagedTopNBottomNState :=
  ⟨[], [], [(2, FlushStatus.Insert 20)], 1, none, none, []⟩

/-- A state whose only cached entry (key 1, row 10) sits in the bottom cache,
with the top cache empty. -/
def bottomOnlyState : ManagedTopNBottomNState :=
  ⟨[], [(1, 10)], [], 1, none, none, []⟩

/-- The state reached from a fresh empty state by the insert sequence
5, 3, 7, 5: the second insert of key 5 lands in the bottom cache while the
first copy stays in the top cache. -/
def dupInsertState : ManagedTopNBottomNState :=
  ((((ManagedTopNBottomNState.new none 0 []).insert 5 50).insert 3 30).insert
      7 70).insert 5 55

/-- A syntactically well-formed state (both caches sorted) whose caches are
inverted: the bottom cache holds key 5, the top cache holds key 1. -/
def invertedCachesState : ManagedTopNBottomNState :=
  ⟨[(1, 10)], [(5, 50)], [], 2, none, none, []⟩

/-- A dirty state used to instantiate the fill-in-cache contract theorem. -/
def dirtyFillState : ManagedTopNBottomNState :=
  ⟨[], [], [(3, FlushStatus.Delete)], 2, none, none, [(3, 30)]⟩

/-- A dirty state used to instantiate the flush frame theorem. -/
def dirtyFrameState : ManagedTopNBottomNState :=
  ⟨[(4, 40)], [(2, 20)], [(4, FlushStatus.Insert 40)], 3, some 1, some 1,
    [(2, 20), (3, 30)]⟩

/-! ## C2 -/

/-- C2: refuted on the code.  For the sorted storage scan [(2, 20)] and the
sorted delta tracker [(10, Insert 30)], the storage key 2 matches no pending
delta and the next delta key 10 is strictly greater, so the claim asserts the
merge inserts (2, 20) unchanged without aborting; instead the merge loop
reaches its `unreachable!()` arm (the `Ordering::Less` case) and panics
(modelled as `PanicKind.mergePanic`). -/
theorem C2_merge_hits_unreachable :
    PWk mergeLessState.storage ∧ PWk mergeLessState.flush_buffer ∧
    mergeLessState.scan_and_merge = Except.error PanicKind.mergePanic := by
  decide

/-! ## C3 -/

/-- C3: refuted on the code.  `flush` drains the Delta Tracker with
`std::mem::take` before awaiting `ingest_batch`; when the store call fails
(third component of the model is `false`) the call returns the error, yet the
tracker is already empty rather than left as it was, so a retried flush would
write nothing. -/
theorem C3_flush_error_drains_tracker :
    dirtyFlushState.is_dirty = true ∧
    (dirtyFlushState.flush false).2.1 = false ∧
    (dirtyFlushState.flush false).1.flush_buffer = [] ∧
    dirtyFlushState.flush_buffer ≠ [] := by
  decide

/-! ## C4 -/

/-- C4: refuted on the code.  With an empty storage scan and a tracker
holding the pending Insert of row 20 at key 2, the claim requires the rebuilt
caches to contain key 2; the merge loop only iterates over storage entries
and never consumes trailing deltas, so `scan_and_merge` succeeds yet leaves
both caches empty and the delta unconsumed. -/
theorem C4_pending_insert_dropped :
    droppedDeltaState.scan_and_merge = Except.ok droppedDeltaState ∧
    mapLookup 2 droppedDeltaState.flush_buffer =
      some (FlushStatus.Insert 20) ∧
    droppedDeltaState.bottom_n = [] ∧ droppedDeltaState.top_n = [] := by
  decide

/-! ## C5 -/

/-- C5: refuted on the code.  The state holds one row (key 1, row 10) in the
bottom cache with `total_count = 1`, so the claim requires both pops to
return Ok(Some((1, 10))).  `delete` returns only `prev_top_n_entry`; the
entry was removed from the bottom cache, so both `pop_bottom_element` and
`pop_top_element` (which falls back to the bottom cache) unwrap `None` and
panic (modelled as `PanicKind.valueUnwrap`). -/
theorem C5_pop_unwraps_none :
    bottomOnlyState.total_count = 1 ∧
    mapLookup 1 bottomOnlyState.bottom_n = some 10 ∧
    bottomOnlyState.pop_bottom_element =
      Except.error PanicKind.valueUnwrap ∧
    bottomOnlyState.pop_top_element = Except.error PanicKind.valueUnwrap := by
  decide

/-! ## C7 -/

/-- C7: confirmed.  Whatever the outcome of a first `flush`, the Delta
Tracker is empty afterwards, so a second `flush` with no intervening mutation
takes the not-dirty early return: it submits no write batch, returns Ok, and
leaves the state exactly as it was; `is_dirty` is false after the first
call. -/
theorem C7_flush_idempotent (s : ManagedTopNBottomNState) (ok₁ ok₂ : Bool) :
    (s.flush ok₁).1.flush ok₂ = ((s.flush ok₁).1, true, []) ∧
    (s.flush ok₁).1.is_dirty = false := by
  unfold ManagedTopNBottomNState.flush ManagedTopNBottomNState.is_dirty
  by_cases h : s.flush_buffer.isEmpty
  · simp [h]
  · by_cases hok : ok₁ <;> simp [h, hok]

/-! ## C8 -/

/-- C8: confirmed.  For any dirty state on which the store's batch write
succeeds, `flush` returns Ok, empties the Delta Tracker (so `is_dirty`
becomes false), and leaves the top cache, the bottom cache and `total_count`
exactly as they were. -/
theorem C8_flush_frame (s : ManagedTopNBottomNState)
    (h : s.is_dirty = true) :
    (s.flush true).2.1 = true ∧
    (s.flush true).1.flush_buffer = [] ∧
    (s.flush true).1.is_dirty = false ∧
    (s.flush true).1.top_n = s.top_n ∧
    (s.flush true).1.bottom_n = s.bottom_n ∧
    (s.flush true).1.total_count = s.total_count := by
  rw [ManagedTopNBottomNState.is_dirty, Bool.not_eq_eq_eq_not] at h
  unfold ManagedTopNBottomNState.flush ManagedTopNBottomNState.is_dirty
  simp [h]

/-- Witness for C8 at the concrete dirty state `dirtyFrameState`. -/
theorem C8_flush_frame_witness :
    dirtyFrameState.is_dirty = true ∧
    ((dirtyFrameState.flush true).2.1 = true ∧
     (dirtyFrameState.flush true).1.flush_buffer = [] ∧
     (dirtyFrameState.flush true).1.is_dirty = false ∧
     (dirtyFrameState.flush true).1.top_n = dirtyFrameState.top_n ∧
     (dirtyFrameState.flush true).1.bottom_n = dirtyFrameState.bottom_n ∧
     (dirtyFrameState.flush true).1.total_count =
       dirtyFrameState.total_count) :=
  ⟨by decide, C8_flush_frame dirtyFrameState (by decide)⟩

/-! ## C9 -/

/-- C9: confirmed.  `fill_in_cache` opens with
`debug_assert!(!self.is_dirty())`: on every dirty state the operation aborts
(modelled as `none`) before any storage scan takes place. -/
theorem C9_fill_in_cache_dirty_aborts (s : ManagedTopNBottomNState)
    (h : s.is_dirty = true) :
    s.fill_in_cache = none := by
  unfold ManagedTopNBottomNState.fill_in_cache
  simp [h]

/-- Witness for C9 at the concrete dirty state `dirtyFillState`. -/
theorem C9_fill_in_cache_dirty_aborts_witness :
    dirtyFillState.is_dirty = true ∧ dirtyFillState.fill_in_cache = none :=
  ⟨by decide, C9_fill_in_cache_dirty_aborts dirtyFillState (by decide)⟩

/-! ## C1 counterexample -/

/-- C1: refuted as stated.  The pure insert sequence 5, 3, 7, 5 from a fresh
empty state (the fourth call re-inserting key 5, which is at that point the
minimum of the top cache) puts key 5 into the bottom cache while the top
cache still holds it: the claim's conclusion fails because key 5 appears in
both caches and max(bottom) = 5 = min(top) rather than max(bottom) <
min(top). -/
theorem C1_counterexample_duplicate_insert :
    mapLookup 5 dupInsertState.bottom_n = some 55 ∧
    mapLookup 5 dupInsertState.top_n = some 50 ∧
    dupInsertState.bottom_n.getLast? = some (5, 55) ∧
    dupInsertState.top_n.head? = some (5, 50) := by
  decide

/-! ## C10 counterexample -/

/-- C10: refuted as stated (over all states).  On a state whose caches are
each sorted but inverted relative to the partition invariant — bottom cache
[(5, 50)], top cache [(1, 10)], total_count 2 — `top_element` returns
(1, 10) although the cached entry (5, 50) has the larger key, and
`bottom_element` returns (5, 50) although (1, 10) has the smaller key, so
neither returns the extreme entry among the cached ones. -/
theorem C10_counterexample_inverted_caches :
    PWk invertedCachesState.top_n ∧ PWk invertedCachesState.bottom_n ∧
    invertedCachesState.top_element = some (1, 10) ∧
    (5, 50) ∈ invertedCachesState.bottom_n ∧
    invertedCachesState.bottom_element = some (5, 50) ∧
    (1, 10) ∈ invertedCachesState.top_n ∧ (1 : Nat) < 5 := by
  decide

/-! ## C10 amended -/

/-- C10 amended: `top_element` and `bottom_element` are pure reads of
(total_count, caches): they never touch the store or the tracker; they return
`none` whenever `total_count = 0`, regardless of cached entries, and also
whenever both caches are empty; and — provided the caches satisfy the sorted
non-overlapping partition invariant, as all states reachable under correct
usage do — they otherwise return the largest (resp. smallest) entry among the
cached ones. -/
theorem C10_peek_extremes :
    (∀ (s : ManagedTopNBottomNState) (st : SMap) (fb : Buf),
      ({ s with storage := st, flush_buffer := fb }
          : ManagedTopNBottomNState).top_element = s.top_element ∧
      ({ s with storage := st, flush_buffer := fb }
          : ManagedTopNBottomNState).bottom_element = s.bottom_element) ∧
    (∀ s : ManagedTopNBottomNState, s.total_count = 0 →
      s.top_element = none ∧ s.bottom_element = none) ∧
    (∀ s : ManagedTopNBottomNState, s.top_n = [] → s.bottom_n = [] →
      s.top_element = none ∧ s.bottom_element = none) ∧
    (∀ s : ManagedTopNBottomNState, PWk s.top_n → PWk s.bottom_n →
      (∀ p ∈ s.bottom_n, ∀ q ∈ s.top_n, p.1 < q.1) →
      s.total_count ≠ 0 → ¬(s.top_n = [] ∧ s.bottom_n = []) →
      (∃ p, s.top_element = some p ∧ (p ∈ s.top_n ∨ p ∈ s.bottom_n) ∧
        (∀ q ∈ s.top_n, q.1 ≤ p.1) ∧ (∀ q ∈ s.bottom_n, q.1 ≤ p.1)) ∧
      (∃ p, s.bottom_element = some p ∧ (p ∈ s.top_n ∨ p ∈ s.bottom_n) ∧
        (∀ q ∈ s.top_n, p.1 ≤ q.1) ∧ (∀ q ∈ s.bottom_n, p.1 ≤ q.1))) := by
  refine ⟨?_, ?_, ?_, ?_⟩
  · intro s st fb
    exact ⟨rfl, rfl⟩
  · intro s h
    unfold ManagedTopNBottomNState.top_element
      ManagedTopNBottomNState.bottom_element
    simp [h]
  · intro s ht hb
    unfold ManagedTopNBottomNState.top_element
      ManagedTopNBottomNState.bottom_element
    simp [ht, hb]
  · intro s hpwT hpwB hsep hc hne
    constructor
    · unfold ManagedTopNBottomNState.top_element
      rw [if_neg hc]
      by_cases htop : s.top_n = []
    
      · have hbot : s.bottom_n ≠ [] := fun h => hne ⟨htop, h⟩
        rw [htop]
        simp only [List.isEmpty_nil, if_pos]
        cases hlast : s.bottom_n.getLast? with
        | none => exact absurd (List.getLast?_eq_none_iff.mp hlast) hbot
        | some p =>
          refine ⟨p, rfl, Or.inr (List.mem_of_mem_getLast? hlast), ?_, ?_⟩
          · intro q hq
            simp at hq
          · intro q hq
            exact le_getLast_of_pw hpwB hlast hq
      · rw [if_neg (by simpa [List.isEmpty_iff] using htop)]
        cases hlast : s.top_n.getLast? with
        | none => exact absurd (List.getLast?_eq_none_iff.mp hlast) htop
        | some p =>
          refine ⟨p, rfl, Or.inl (List.mem_of_mem_getLast? hlast), ?_, ?_⟩
          · intro q hq
            exact le_getLast_of_pw hpwT hlast hq
          · intro q hq
            exact le_of_lt
              (hsep q hq p (List.mem_of_mem_getLast? hlast))
    · unfold ManagedTopNBottomNState.bottom_element
      rw [if_neg hc]
      by_cases hbot : s.bottom_n = []
      · have htop : s.top_n ≠ [] := fun h => hne ⟨h, hbot⟩
        rw [hbot]
        simp only [List.isEmpty_nil, if_pos]
        cases hhead : s.top_n.head? with
        | none => exact absurd (List.head?_eq_none_iff.mp hhead) htop
        | some p =>
          refine ⟨p, rfl, Or.inl (List.mem_of_mem_head? hhead), ?_, ?_⟩
          · intro q hq
            exact head_le_of_pw hpwT hhead hq
          · intro q hq
            simp at hq
      · rw [if_neg (by simpa [List.isEmpty_iff] using hbot)]
        cases hhead : s.bottom_n.head? with
        | none => exact absurd (List.head?_eq_none_iff.mp hhead) hbot
        | some p =>
          refine ⟨p, rfl, Or.inr (List.mem_of_mem_head? hhead), ?_, ?_⟩
          · intro q hq
            exact le_of_lt
              (hsep p (List.mem_of_mem_head? hhead) q hq)
          · intro q hq
            exact head_le_of_pw hpwB hhead hq

/-- A well-partitioned two-cache state used to instantiate `C10_peek_extremes`:
bottom cache [(1, 10)], top cache [(7, 70), (9, 90)]. -/
def partitionedState : ManagedTopNBottomNState :=
  ⟨[(7, 70), (9, 90)], [(1, 10)], [], 3, none, none, []⟩

/-- Witness for C10 at `partitionedState`. -/
theorem C10_peek_extremes_witness :
    partitionedState.top_element = some (9, 90) ∧
    partitionedState.bottom_element = some (1, 10) ∧
    ((∃ p, partitionedState.top_element = some p ∧
        (p ∈ partitionedState.top_n ∨ p ∈ partitionedState.bottom_n) ∧
        (∀ q ∈ partitionedState.top_n, q.1 ≤ p.1) ∧
        (∀ q ∈ partitionedState.bottom_n, q.1 ≤ p.1)) ∧
     (∃ p, partitionedState.bottom_element = some p ∧
        (p ∈ partitionedState.top_n ∨ p ∈ partitionedState.bottom_n) ∧
        (∀ q ∈ partitionedState.top_n, p.1 ≤ q.1) ∧
        (∀ q ∈ partitionedState.bottom_n, p.1 ≤ q.1))) :=
  ⟨by decide, by decide,
    C10_peek_extremes.2.2.2 partitionedState (by decide) (by decide)
      (by decide) (by decide) (by decide)⟩

/-! ## Cache-partition machinery for the non-overlap invariant -/

namespace ManagedTopNBottomNState

/-- The two caches are separated: every bottom-cache key is strictly below
every top-cache key.  For non-empty caches this is exactly
max(bottom) < min(top) together with key-disjointness. -/
def CacheSep (s : ManagedTopNBottomNState) : Prop :=
  ∀ p ∈ s.bottom_n, ∀ q ∈ s.top_n, p.1 < q.1

theorem pw_take_drop_lt {α : Type} {l : List (Nat × α)} (h : PWk l) (n : Nat) :
    ∀ p ∈ l.take n, ∀ q ∈ l.drop n, p.1 < q.1 := by
  have h' : List.Pairwise (fun a b : Nat × α => a.1 < b.1)
      (l.take n ++ l.drop n) := by
    rw [List.take_append_drop]
    exact h
  exact (List.pairwise_append.mp h').2.2

theorem ip_pw :
    ∀ (part : SMap) (cache : SMap) (buf : Buf) (c' : SMap) (b' : Buf),
      PWk cache → insertProcess cache part buf = some (c', b') → PWk c' := by
  intro part
  induction part with
  | nil =>
    intro cache buf c' b' hpw h
    simp only [insertProcess, Option.some.injEq, Prod.mk.injEq] at h
    rw [← h.1]
    exact hpw
  | cons a rest ih =>
    obtain ⟨ks, vs⟩ := a
    intro cache buf c' b' hpw h
    simp only [insertProcess] at h
    split at h
    · exact ih _ _ _ _ (pw_mapInsert hpw) h
    · split at h
      · split at h
        · exact ih _ _ _ _ hpw h
        · exact ih _ _ _ _ (pw_mapInsert hpw) h
        · exact ih _ _ _ _ (pw_mapInsert hpw) h
      · split at h
        · exact ih _ _ _ _ hpw h
        · simp at h

theorem ip_mem :
    ∀ (part : SMap) (cache : SMap) (buf : Buf) (c' : SMap) (b' : Buf),
      insertProcess cache part buf = some (c', b') →
      ∀ p, p ∈ c' → p ∈ cache ∨ p.1 ∈ keys part := by
  intro part
  induction part with
  | nil =>
    intro cache buf c' b' h p hp
    simp only [insertProcess, Option.some.injEq, Prod.mk.injEq] at h
    rw [← h.1] at hp
    exact Or.inl hp
  | cons a rest ih =>
    obtain ⟨ks, vs⟩ := a
    intro cache buf c' b' h p hp
    simp only [insertProcess] at h
    split at h
    · rcases ih _ _ _ _ h p hp with h' | h'
      · rcases mem_mapInsert h' with h'' | h''
        · rw [h'']
          exact Or.inr (by simp [keys])
        · exact Or.inl h''
      · exact Or.inr (by simp [keys]; right; simpa [keys] using h')
    · split at h
      · split at h
        · rcases ih _ _ _ _ h p hp with h' | h'
          · exact Or.inl h'
          · exact Or.inr (by simp [keys]; right; simpa [keys] using h')
        · rcases ih _ _ _ _ h p hp with h' | h'
          · rcases mem_mapInsert h' with h'' | h''
            · rw [h'']
              exact Or.inr (by simp [keys])
            · exact Or.inl h''
          · exact Or.inr (by simp [keys]; right; simpa [keys] using h')
        · rcases ih _ _ _ _ h p hp with h' | h'
          · rcases mem_mapInsert h' with h'' | h''
            · rw [h'']
              exact Or.inr (by simp [keys])
            · exact Or.inl h''
          · exact Or.inr (by simp [keys]; right; simpa [keys] using h')
      · split at h
        · rcases ih _ _ _ _ h p hp with h' | h'
          · exact Or.inl h'
          · exact Or.inr (by simp [keys]; right; simpa [keys] using h')
        · simp at h

theorem foldl_mapInsert_pw :
    ∀ (l : SMap) (cache : SMap), PWk cache →
      PWk (l.foldl (fun m kv => mapInsert kv.1 kv.2 m) cache) := by
  intro l
  induction l with
  | nil => intro cache hpw; exact hpw
  | cons a t ih =>
    intro cache hpw
    rw [List.foldl_cons]
    exact ih _ (pw_mapInsert hpw)

theorem foldl_mapInsert_mem :
    ∀ (l : SMap) (cache : SMap) (p : Nat × Nat),
      p ∈ l.foldl (fun m kv => mapInsert kv.1 kv.2 m) cache →
      p ∈ cache ∨ p.1 ∈ keys l := by
  intro l
  induction l with
  | nil => intro cache p hp; exact Or.inl hp
  | cons a t ih =>
    intro cache p hp
    rw [List.foldl_cons] at hp
    rcases ih _ p hp with h' | h'
    · rcases mem_mapInsert h' with h'' | h''
      · rw [h'']
        exact Or.inr (by simp [keys])
      · exact Or.inl h''
    · exact Or.inr (by simp [keys]; right; simpa [keys] using h')

theorem retain_top_n_map_sublist (n : Nat) :
    ∀ (m : SMap), (retain_top_n_map n m).Sublist m := by
  intro m
  induction m with
  | nil => simp [retain_top_n_map]
  | cons a t ih =>
    rw [retain_top_n_map]
    split
    · exact ih.trans (List.sublist_cons_self a t)
    · exact List.Sublist.refl _

theorem retain_bottom_n_map_sublist (n : Nat) (m : SMap) :
    (retain_bottom_n_map n m).Sublist m := by
  rw [retain_bottom_n_map]
  split
  · exact (retain_bottom_n_map_sublist n m.dropLast).trans
      (List.dropLast_sublist m)
  · exact List.Sublist.refl m
termination_by m.length
decreasing_by
  rw [List.length_dropLast]
  omega

end ManagedTopNBottomNState

namespace ManagedTopNBottomNState

theorem insert_storage (s : ManagedTopNBottomNState) (k v : Nat) :
    (s.insert k v).storage = s.storage := by
  unfold insert
  split <;> rfl

/-- A fresh insert (key cached in neither cache) preserves sortedness and the
cache separation. -/
theorem sep_insert (s : ManagedTopNBottomNState) (k v : Nat)
    (hpwT : PWk s.top_n) (hpwB : PWk s.bottom_n) (hsep : CacheSep s)
    (hfT : mapLookup k s.top_n = none) (hfB : mapLookup k s.bottom_n = none) :
    PWk (s.insert k v).top_n ∧ PWk (s.insert k v).bottom_n ∧
      CacheSep (s.insert k v) := by
  have hneT : ∀ q ∈ s.top_n, q.1 ≠ k := mapLookup_none_iff.mp hfT
  have hneB : ∀ p ∈ s.bottom_n, p.1 ≠ k := mapLookup_none_iff.mp hfB
  unfold insert
  by_cases hc : s.insert_chooses_top k = true
  · rw [if_pos hc]
    refine ⟨pw_mapInsert hpwT, hpwB, ?_⟩
    intro p hp q hq
    simp only at hp hq
    rcases mem_mapInsert hq with hq' | hq'
    · rw [hq']
      unfold insert_chooses_top at hc
      by_cases hlen : s.bottom_n.length < s.top_n.length
      · rw [if_pos hlen] at hc
        cases hh : s.top_n.head? with
        | none =>
          rw [List.head?_eq_none_iff] at hh
          rw [hh] at hlen
          simp at hlen
        | some kv₀ =>
          rw [hh] at hc
          simp only [decide_eq_true_eq] at hc
          have h₁ := hsep p hp kv₀ (List.mem_of_mem_head? hh)
          simp only
          omega
      · rw [if_neg hlen] at hc
        rcases Bool.or_eq_true_iff.mp hc with hemp | hlast
        · rw [List.isEmpty_iff] at hemp
          rw [hemp] at hp
          simp at hp
        · cases hl : s.bottom_n.getLast? with
          | none =>
            rw [List.getLast?_eq_none_iff] at hl
            rw [hl] at hp
            simp at hp
          | some kv₀ =>
            rw [hl] at hlast
            simp only [decide_eq_true_eq] at hlast
            have h₁ := le_getLast_of_pw hpwB hl hp
            have h₂ := hneB p hp
            simp only
            omega
    · exact hsep p hp q hq'
  · rw [if_neg hc]
    refine ⟨hpwT, pw_mapInsert hpwB, ?_⟩
    intro p hp q hq
    simp only at hp hq
    rcases mem_mapInsert hp with hp' | hp'
    · rw [hp']
      rw [Bool.not_eq_true] at hc
      unfold insert_chooses_top at hc
      by_cases hlen : s.bottom_n.length < s.top_n.length
      · rw [if_pos hlen] at hc
        cases hh : s.top_n.head? with
        | none =>
          rw [hh] at hc
          simp at hc
        | some kv₀ =>
          rw [hh] at hc
          simp only [decide_eq_false_iff_not] at hc
          have h₁ := head_le_of_pw hpwT hh hq
          have h₂ := hneT kv₀ (List.mem_of_mem_head? hh)
          simp only
          omega
      · rw [if_neg hlen] at hc
        rw [Bool.or_eq_false_iff] at hc
        obtain ⟨hemp, hlast⟩ := hc
        cases hl : s.bottom_n.getLast? with
        | none =>
          rw [List.getLast?_eq_none_iff] at hl
          rw [← List.isEmpty_iff] at hl
          rw [hl] at hemp
          simp at hemp
        | some kv₀ =>
          rw [hl] at hlast
          simp only [decide_eq_false_iff_not] at hlast
          have h₁ := hsep kv₀ (List.mem_of_mem_getLast? hl) q hq
          simp only
          omega
    · exact hsep p hp' q hq

/-- A successful reconciliation started with both caches empty produces
sorted, separated caches and touches neither the tracker, the storage, nor
the count. -/
theorem sep_scan_empty (s s' : ManagedTopNBottomNState)
    (hT : s.top_n = []) (hB : s.bottom_n = []) (hpwSt : PWk s.storage)
    (hs : s.scan_and_merge = Except.ok s') :
    PWk s'.top_n ∧ PWk s'.bottom_n ∧ CacheSep s' ∧
      s'.storage = s.storage ∧ s'.flush_buffer = s.flush_buffer ∧
      s'.total_count = s.total_count := by
  unfold scan_and_merge at hs
  dsimp only at hs
  split at hs
  · exact absurd hs (by simp)
  · rename_i b₁ buf₁ h₁
    split at hs
    · exact absurd hs (by simp)
    · rename_i t₁ buf₂ h₂
      simp only [Except.ok.injEq] at hs
      rw [← hs]
      rw [hT] at h₂
      rw [hB] at h₁
      refine ⟨ip_pw _ _ _ _ _ (by simp [PWk]) h₂,
              ip_pw _ _ _ _ _ (by simp [PWk]) h₁, ?_, rfl, rfl, rfl⟩
      intro p hp q hq
      simp only at hp hq
      rcases ip_mem _ _ _ _ _ h₁ p hp with h' | h'
      · simp at h'
      · rcases ip_mem _ _ _ _ _ h₂ q hq with h'' | h''
        · simp at h''
        · simp only [keys, List.mem_map] at h' h''
          obtain ⟨i, hi, hik⟩ := h'
          obtain ⟨j, hj, hjk⟩ := h''
          rw [← hik, ← hjk]
          exact pw_take_drop_lt hpwSt _ i hi j hj

/-- A `fill_in_cache` started with both caches empty produces sorted,
separated caches and leaves storage unchanged. -/
theorem sep_fill_empty (s s' : ManagedTopNBottomNState)
    (hT : s.top_n = []) (hB : s.bottom_n = []) (hpwSt : PWk s.storage)
    (hf : s.fill_in_cache = some s') :
    PWk s'.top_n ∧ PWk s'.bottom_n ∧ CacheSep s' ∧ s'.storage = s.storage := by
  unfold fill_in_cache at hf
  split at hf
  · exact absurd hf (by simp)
  · simp only [Option.some.injEq] at hf
    rw [← hf]
    rw [hT, hB]
    refine ⟨foldl_mapInsert_pw _ _ (by simp [PWk]),
            foldl_mapInsert_pw _ _ (by simp [PWk]), ?_, rfl⟩
    intro p hp q hq
    simp only at hp hq
    rcases foldl_mapInsert_mem _ _ _ hp with h' | h'
    · simp at h'
    · rcases foldl_mapInsert_mem _ _ _ hq with h'' | h''
      · simp at h''
      · simp only [keys, List.mem_map] at h' h''
        obtain ⟨i, hi, hik⟩ := h'
        obtain ⟨j, hj, hjk⟩ := h''
        rw [← hik, ← hjk]
        exact pw_take_drop_lt hpwSt _ i hi j hj

/-- `delete` (successful) preserves sortedness and separation of the caches
and leaves storage unchanged. -/
theorem sep_delete (s s' : ManagedTopNBottomNState) (k : Nat)
    (r : Option Nat) (hpwT : PWk s.top_n) (hpwB : PWk s.bottom_n)
    (hsep : CacheSep s) (hpwSt : PWk s.storage)
    (hd : s.delete k = Except.ok (s', r)) :
    PWk s'.top_n ∧ PWk s'.bottom_n ∧ CacheSep s' ∧ s'.storage = s.storage := by
  unfold delete at hd
  dsimp only at hd
  split at hd
  · exact absurd hd (by simp)
  · split at hd
    · exact absurd hd (by simp)
    · split at hd
      · rename_i hcond
        split at hd
        · exact absurd hd (by simp)
        · rename_i s₂ hscan
          simp only [Except.ok.injEq, Prod.mk.injEq] at hd
          obtain ⟨hs₂, _⟩ := hd
          rw [← hs₂]
          have := sep_scan_empty _ s₂ hcond.1 hcond.2.1 (by exact hpwSt)
            hscan
          exact ⟨this.1, this.2.1, this.2.2.1, this.2.2.2.1⟩
      · simp only [Except.ok.injEq, Prod.mk.injEq] at hd
        obtain ⟨hs₁, _⟩ := hd
        rw [← hs₁]
        refine ⟨pw_mapErase hpwT, pw_mapErase hpwB, ?_, rfl⟩
        intro p hp q hq
        simp only at hp hq
        exact hsep p (mem_mapErase hpwB hp).1 q (mem_mapErase hpwT hq).1

end ManagedTopNBottomNState

namespace ManagedTopNBottomNState

/-- The structural invariant carried through every operation: sorted caches,
sorted storage, separated caches. -/
def CacheInv (s : ManagedTopNBottomNState) : Prop :=
  PWk s.top_n ∧ PWk s.bottom_n ∧ PWk s.storage ∧ CacheSep s

theorem cacheInv_retain_top (s : ManagedTopNBottomNState) (n : Nat)
    (h : CacheInv s) : CacheInv (s.retain_top_n n) := by
  obtain ⟨hT, hB, hSt, hsep⟩ := h
  have hsub := retain_top_n_map_sublist n s.top_n
  refine ⟨List.Pairwise.sublist hsub hT, hB, hSt, ?_⟩
  intro p hp q hq
  exact hsep p hp q (hsub.subset hq)

theorem cacheInv_retain_bottom (s : ManagedTopNBottomNState) (n : Nat)
    (h : CacheInv s) : CacheInv (s.retain_bottom_n n) := by
  obtain ⟨hT, hB, hSt, hsep⟩ := h
  have hsub := retain_bottom_n_map_sublist n s.bottom_n
  refine ⟨hT, List.Pairwise.sublist hsub hB, hSt, ?_⟩
  intro p hp q hq
  exact hsep p (hsub.subset hp) q hq

theorem cacheInv_retain_both (s : ManagedTopNBottomNState)
    (h : CacheInv s) : CacheInv s.retain_both_n := by
  unfold retain_both_n
  dsimp only
  cases htc : s.top_n_count with
  | none =>
    cases hbc : s.bottom_n_count with
    | none => exact h
    | some m => exact cacheInv_retain_bottom _ _ h
  | some n =>
    cases hbc : (s.retain_top_n n).bottom_n_count with
    | none => exact cacheInv_retain_top _ _ h
    | some m =>
      exact cacheInv_retain_bottom _ _ (cacheInv_retain_top _ _ h)

theorem cacheInv_insert (s : ManagedTopNBottomNState) (k v : Nat)
    (hfT : mapLookup k s.top_n = none) (hfB : mapLookup k s.bottom_n = none)
    (h : CacheInv s) : CacheInv (s.insert k v) := by
  obtain ⟨hT, hB, hSt, hsep⟩ := h
  have h₃ := sep_insert s k v hT hB hsep hfT hfB
  refine ⟨h₃.1, h₃.2.1, ?_, h₃.2.2⟩
  rw [insert_storage]
  exact hSt

theorem cacheInv_delete (s s' : ManagedTopNBottomNState) (k : Nat)
    (r : Option Nat) (hd : s.delete k = Except.ok (s', r))
    (h : CacheInv s) : CacheInv s' := by
  obtain ⟨hT, hB, hSt, hsep⟩ := h
  have h₃ := sep_delete s s' k r hT hB hsep hSt hd
  refine ⟨h₃.1, h₃.2.1, ?_, h₃.2.2.1⟩
  rw [h₃.2.2.2]
  exact hSt

theorem cacheInv_scan (s s' : ManagedTopNBottomNState)
    (hT : s.top_n = []) (hB : s.bottom_n = [])
    (hs : s.scan_and_merge = Except.ok s') (h : CacheInv s) : CacheInv s' := by
  obtain ⟨_, _, hSt, _⟩ := h
  have h₃ := sep_scan_empty s s' hT hB hSt hs
  refine ⟨h₃.1, h₃.2.1, ?_, h₃.2.2.1⟩
  rw [h₃.2.2.2.1]
  exact hSt

theorem cacheInv_fill (s s' : ManagedTopNBottomNState)
    (hT : s.top_n = []) (hB : s.bottom_n = [])
    (hf : s.fill_in_cache = some s') (h : CacheInv s) : CacheInv s' := by
  obtain ⟨_, _, hSt, _⟩ := h
  have h₃ := sep_fill_empty s s' hT hB hSt hf
  refine ⟨h₃.1, h₃.2.1, ?_, h₃.2.2.1⟩
  rw [h₃.2.2.2]
  exact hSt

/-- The states reachable by the claim's operation sequences, under the two
amendments: an insert requires its key to be cached in neither cache, and
reconciliation (`scan_and_merge` / `fill_in_cache`) is invoked only when both
caches are empty — which is the only way the code itself ever triggers
`scan_and_merge` (the comment at lines 219-221) and the only use of
`fill_in_cache` exercised by the executor (startup on a freshly constructed
state). -/
inductive Reachable : ManagedTopNBottomNState → Prop
  | init (cs : Option Nat) (c : Nat) (st : SMap) (hst : PWk st) :
      Reachable (new cs c st)
  | ins {s : ManagedTopNBottomNState} (k v : Nat) (h : Reachable s)
      (hT : mapLookup k s.top_n = none) (hB : mapLookup k s.bottom_n = none) :
      Reachable (s.insert k v)
  | del {s s' : ManagedTopNBottomNState} {r : Option Nat} (k : Nat)
      (h : Reachable s) (hd : s.delete k = Except.ok (s', r)) : Reachable s'
  | retT {s : ManagedTopNBottomNState} (n : Nat) (h : Reachable s) :
      Reachable (s.retain_top_n n)
  | retB {s : ManagedTopNBottomNState} (n : Nat) (h : Reachable s) :
      Reachable (s.retain_bottom_n n)
  | retBoth {s : ManagedTopNBottomNState} (h : Reachable s) :
      Reachable s.retain_both_n
  | scan {s s' : ManagedTopNBottomNState} (h : Reachable s)
      (hT : s.top_n = []) (hB : s.bottom_n = [])
      (hs : s.scan_and_merge = Except.ok s') : Reachable s'
  | fill {s s' : ManagedTopNBottomNState} (h : Reachable s)
      (hT : s.top_n = []) (hB : s.bottom_n = [])
      (hf : s.fill_in_cache = some s') : Reachable s'

theorem reachable_cacheInv (s : ManagedTopNBottomNState)
    (h : Reachable s) : CacheInv s := by
  induction h with
  | init cs c st hst =>
    refine ⟨?_, ?_, hst, ?_⟩
    · simp [new, PWk]
    · simp [new, PWk]
    · intro p hp
      simp [new] at hp
  | ins k v h hT hB ih => exact cacheInv_insert _ k v hT hB ih
  | del k h hd ih => exact cacheInv_delete _ _ k _ hd ih
  | retT n h ih => exact cacheInv_retain_top _ n ih
  | retB n h ih => exact cacheInv_retain_bottom _ n ih
  | retBoth h ih => exact cacheInv_retain_both _ ih
  | scan h hT hB hs ih => exact cacheInv_scan _ _ hT hB hs ih
  | fill h hT hB hf ih => exact cacheInv_fill _ _ hT hB hf ih

end ManagedTopNBottomNState

/-! ## C1 amended -/

/-- C1 amended: for every sequence of insert, delete, retain and
reconciliation operations in which each insert uses a key cached in neither
cache at that moment (keys are unique per live row) and reconciliation
(`scan_and_merge` / `fill_in_cache`) is invoked only when both caches are
empty — the only way the code itself triggers it — every reachable state
keeps the caches disjoint and separated: each bottom key is strictly below
each top key, no key is in both caches, and when both caches are non-empty
the maximum bottom key is strictly below the minimum top key. -/
theorem C1_cache_nonoverlap (s : ManagedTopNBottomNState)
    (h : ManagedTopNBottomNState.Reachable s) :
    (∀ p ∈ s.bottom_n, ∀ q ∈ s.top_n, p.1 < q.1) ∧
    (∀ k : Nat, ¬(k ∈ keys s.bottom_n ∧ k ∈ keys s.top_n)) ∧
    (∀ pb pt : Nat × Nat, s.bottom_n.getLast? = some pb →
      s.top_n.head? = some pt → pb.1 < pt.1) := by
  have hsep := (ManagedTopNBottomNState.reachable_cacheInv s h).2.2.2
  refine ⟨hsep, ?_, ?_⟩
  · rintro k ⟨hkB, hkT⟩
    simp only [keys, List.mem_map] at hkB hkT
    obtain ⟨p, hp, hpk⟩ := hkB
    obtain ⟨q, hq, hqk⟩ := hkT
    have := hsep p hp q hq
    omega
  · intro pb pt hb ht
    exact hsep pb (List.mem_of_mem_getLast? hb) pt (List.mem_of_mem_head? ht)

/-- Witness for C1: the state reached by inserting key 5 then key 3 from a
fresh empty state has bottom cache [(3, 30)] and top cache [(5, 50)]; the
theorem instantiated there yields max(bottom) = 3 < 5 = min(top). -/
theorem C1_cache_nonoverlap_witness : ((3 : Nat), 30).1 < ((5 : Nat), 50).1 :=
  (C1_cache_nonoverlap
    (((ManagedTopNBottomNState.new none 0 []).insert 5 50).insert 3 30)
    (ManagedTopNBottomNState.Reachable.ins 3 30
      (ManagedTopNBottomNState.Reachable.ins 5 50
        (ManagedTopNBottomNState.Reachable.init none 0 [] (by decide))
        (by decide) (by decide))
      (by decide) (by decide))).2.2 (3, 30) (5, 50) (by decide) (by decide)

/-! ## Machinery for count conservation (C6) -/

theorem lookup_of_mem_pw {α : Type} {k : Nat} {v : α} :
    ∀ {l : List (Nat × α)}, PWk l → (k, v) ∈ l → mapLookup k l = some v := by
  intro l
  induction l with
  | nil => intro _ h; simp at h
  | cons a t ih =>
    obtain ⟨a₁, a₂⟩ := a
    intro hpw h
    rw [PWk, List.pairwise_cons] at hpw
    rw [mapLookup_cons]
    rcases List.mem_cons.mp h with h' | h'
    · rw [Prod.mk.injEq] at h'
      rw [if_pos h'.1, h'.2]
    · by_cases hk : k = a₁
      · have := hpw.1 _ h'
        simp at this
        omega
      · rw [if_neg hk]
        exact ih hpw.2 h'

theorem keys_nodup {α : Type} {l : List (Nat × α)} (h : PWk l) :
    (keys l).Nodup := by
  rw [keys]
  have h' : List.Pairwise (fun a b : Nat => a < b) (l.map Prod.fst) := by
    rw [List.pairwise_map]
    exact h
  exact h'.imp Nat.ne_of_lt

theorem lookup_append_of_ne {α : Type} {j : Nat} :
    ∀ {d l : List (Nat × α)}, (∀ e ∈ d, e.1 ≠ j) →
      mapLookup j (d ++ l) = mapLookup j l := by
  intro d
  induction d with
  | nil => intro l _; simp
  | cons a t ih =>
    obtain ⟨a₁, a₂⟩ := a
    intro l hne
    rw [List.cons_append, mapLookup_cons]
    have h₁ : j ≠ a₁ :=
      fun hc => hne (a₁, a₂) (List.mem_cons_self _ _) (by simp [hc])
    rw [if_neg h₁]
    exact ih fun e he => hne e (List.mem_cons_of_mem _ he)

namespace ManagedTopNBottomNState

theorem dropLt_split (ks : Nat) :
    ∀ (buf : Buf), ∃ d, buf = d ++ dropLt ks buf ∧ ∀ e ∈ d, e.1 < ks := by
  intro buf
  induction buf with
  | nil => exact ⟨[], by simp [dropLt]⟩
  | cons a t ih =>
    obtain ⟨a₁, a₂⟩ := a
    rw [dropLt]
    by_cases h : a₁ < ks
    · rw [if_pos h]
      obtain ⟨d, hd, hlt⟩ := ih
      refine ⟨(a₁, a₂) :: d, ?_, ?_⟩
      · rw [List.cons_append, ← hd]
      · intro e he
        rcases List.mem_cons.mp he with h' | h'
        · rw [h']; exact h
        · exact hlt e h'
    · rw [if_neg h]
      exact ⟨[], by simp⟩

theorem dropLt_head_ge (ks : Nat) :
    ∀ (buf : Buf) (kb : Nat) (st : FlushStatus) (bt : Buf),
      dropLt ks buf = (kb, st) :: bt → ks ≤ kb := by
  intro buf
  induction buf with
  | nil => intro kb st bt h; simp [dropLt] at h
  | cons a t ih =>
    obtain ⟨a₁, a₂⟩ := a
    intro kb st bt h
    rw [dropLt] at h
    by_cases h₁ : a₁ < ks
    · rw [if_pos h₁] at h
      exact ih _ _ _ h
    · rw [if_neg h₁] at h
      rw [List.cons.injEq, Prod.mk.injEq] at h
      obtain ⟨⟨h₂, _⟩, _⟩ := h
      omega

end ManagedTopNBottomNState

/-- The pending delta at a key permits that key to be live: no delta, a
pending Insert, or a pending Upsert, but not a pending Delete. -/
def deltaOk (buf : Buf) (j : Nat) : Prop :=
  match mapLookup j buf with
  | some (FlushStatus.Insert _) => True
  | some (FlushStatus.DeleteInsert _) => True
  | some FlushStatus.Delete => False
  | none => True

theorem deltaOk_of_none {buf : Buf} {j : Nat}
    (h : mapLookup j buf = none) : deltaOk buf j := by
  unfold deltaOk
  rw [h]
  trivial

theorem deltaOk_congr {b₁ b₂ : Buf} {j : Nat}
    (h : mapLookup j b₁ = mapLookup j b₂) (hd : deltaOk b₁ j) :
    deltaOk b₂ j := by
  unfold deltaOk at hd ⊢
  rw [← h]
  exact hd

/-- The key is live in storage merged with the Delta Tracker: its delta is
not a Delete, and if it has no delta at all it is present in storage.  The
set of live keys is what `total_count` counts. -/
def ManagedTopNBottomNState.effP (s : ManagedTopNBottomNState) (k : Nat) :
    Prop :=
  deltaOk s.flush_buffer k ∧
    (mapLookup k s.flush_buffer = none → k ∈ keys s.storage)

namespace ManagedTopNBottomNState

/-- Soundness of the merge loop: every entry of the output cache was already
cached or carries a key of the processed storage slice whose pending delta
(in the delta cursor handed to the loop) permits it. -/
theorem ip_sound :
    ∀ (part : SMap) (cache : SMap) (buf : Buf) (c' : SMap) (b' : Buf),
      PWk part → insertProcess cache part buf = some (c', b') →
      ∀ p ∈ c', p ∈ cache ∨ (p.1 ∈ keys part ∧ deltaOk buf p.1) := by
  intro part
  induction part with
  | nil =>
    intro cache buf c' b' _ h p hp
    simp only [insertProcess, Option.some.injEq, Prod.mk.injEq] at h
    rw [← h.1] at hp
    exact Or.inl hp
  | cons a rest ih =>
    obtain ⟨ks, vs⟩ := a
    intro cache buf c' b' hpw h p hp
    rw [PWk, List.pairwise_cons] at hpw
    obtain ⟨hks, hpwr⟩ := hpw
    obtain ⟨d₀, hsplit, hdlt⟩ := dropLt_split ks buf
    have htrans : ∀ j : Nat, ks ≤ j →
        mapLookup j buf = mapLookup j (dropLt ks buf) := by
      intro j hj
      conv_lhs => rw [hsplit]
      refine lookup_append_of_ne fun e he => ?_
      have := hdlt e he
      omega
    have hrest_gt : ∀ j : Nat, j ∈ keys rest → ks < j := by
      intro j hj
      simp only [keys, List.mem_map] at hj
      obtain ⟨q, hq, hqk⟩ := hj
      rw [← hqk]
      exact hks q hq
    have hkey_cons : ∀ j : Nat, j ∈ keys rest →
        j ∈ keys ((ks, vs) :: rest) := by
      intro j hj
      simp only [keys, List.map_cons, List.mem_cons]
      right
      simpa [keys] using hj
    have hkey_self : ks ∈ keys ((ks, vs) :: rest) := by simp [keys]
    simp only [insertProcess] at h
    split at h
    · rename_i hdrop
      have hnone : ∀ j : Nat, ks ≤ j → mapLookup j buf = none := by
        intro j hj
        rw [htrans j hj, hdrop]
        rfl
      rcases ih _ _ _ _ hpwr h p hp with h' | h'
      · rcases mem_mapInsert h' with h'' | h''
        · rw [h'']
          exact Or.inr ⟨hkey_self, deltaOk_of_none (hnone ks le_rfl)⟩
        · exact Or.inl h''
      · obtain ⟨hmem, _⟩ := h'
        exact Or.inr ⟨hkey_cons p.1 hmem,
          deltaOk_of_none (hnone p.1 (le_of_lt (hrest_gt p.1 hmem)))⟩
    · rename_i kb st bt hdrop
      have hkb : ks ≤ kb := dropLt_head_ge ks buf kb st bt hdrop
      have hlook : mapLookup kb buf = some st := by
        rw [htrans kb hkb, hdrop, mapLookup_cons, if_pos rfl]
      have htrans₁ : ∀ j : Nat, ks < j →
          mapLookup j buf = mapLookup j ((kb, st) :: bt) := by
        intro j hj
        rw [htrans j (le_of_lt hj), hdrop]
      have hrest_ok : ∀ j : Nat, j ∈ keys rest → deltaOk ((kb, st) :: bt) j →
          deltaOk buf j := by
        intro j hj hok
        exact deltaOk_congr (htrans₁ j (hrest_gt j hj)).symm hok
      split at h
      · rename_i heq
        have hlookks : mapLookup ks buf = some st := heq ▸ hlook
        split at h
        · rcases ih _ _ _ _ hpwr h p hp with h' | h'
          · exact Or.inl h'
          · exact Or.inr ⟨hkey_cons p.1 h'.1, hrest_ok p.1 h'.1 h'.2⟩
        · rename_i r
          have hdel : deltaOk buf ks := by
            unfold deltaOk
            rw [hlookks]
            trivial
          rcases ih _ _ _ _ hpwr h p hp with h' | h'
          · rcases mem_mapInsert h' with h'' | h''
            · rw [h'']
              exact Or.inr ⟨hkey_self, hdel⟩
            · exact Or.inl h''
          · exact Or.inr ⟨hkey_cons p.1 h'.1, hrest_ok p.1 h'.1 h'.2⟩
        · rename_i r
          have hdel : deltaOk buf ks := by
            unfold deltaOk
            rw [hlookks]
            trivial
          rcases ih _ _ _ _ hpwr h p hp with h' | h'
          · rcases mem_mapInsert h' with h'' | h''
            · rw [h'']
              exact Or.inr ⟨hkey_self, hdel⟩
            · exact Or.inl h''
          · exact Or.inr ⟨hkey_cons p.1 h'.1, hrest_ok p.1 h'.1 h'.2⟩
      · split at h
        · rename_i hlt
          rcases ih _ _ _ _ hpwr h p hp with h' | h'
          · exact Or.inl h'
          · obtain ⟨hmem, hok⟩ := h'
            refine Or.inr ⟨hkey_cons p.1 hmem, ?_⟩
            have hj := hrest_gt p.1 hmem
            refine deltaOk_congr ?_ hok
            have h₂ : mapLookup p.1 ((kb, st) :: bt) = mapLookup p.1 bt := by
              rw [mapLookup_cons, if_neg (by omega)]
            rw [← h₂]
            exact (htrans₁ p.1 hj).symm
        · simp at h

/-- The merge loop only drops a prefix of the delta cursor, and every entry
it drops has a key strictly below some key of the processed storage slice. -/
theorem ip_suffix :
    ∀ (part : SMap) (cache : SMap) (buf : Buf) (c' : SMap) (b' : Buf),
      insertProcess cache part buf = some (c', b') →
      ∃ d, buf = d ++ b' ∧ ∀ e ∈ d, ∃ i ∈ part, e.1 < i.1 := by
  intro part
  induction part with
  | nil =>
    intro cache buf c' b' h
    simp only [insertProcess, Option.some.injEq, Prod.mk.injEq] at h
    exact ⟨[], by simp [h.2]⟩
  | cons a rest ih =>
    obtain ⟨ks, vs⟩ := a
    intro cache buf c' b' h
    obtain ⟨d₀, hsplit, hdlt⟩ := dropLt_split ks buf
    simp only [insertProcess] at h
    split at h
    · rename_i hdrop
      obtain ⟨d₁, hd₁, hlt₁⟩ := ih _ _ _ _ h
      rcases List.append_eq_nil.mp hd₁.symm with ⟨hd₁nil, hb'nil⟩
      refine ⟨d₀, ?_, ?_⟩
      · rw [hb'nil, List.append_nil]
        rw [hsplit, hdrop, List.append_nil]
      · intro e he
        exact ⟨(ks, vs), List.mem_cons_self _ _, hdlt e he⟩
    · rename_i kb st bt hdrop
      split at h
      · split at h
        all_goals
          obtain ⟨d₁, hd₁, hlt₁⟩ := ih _ _ _ _ h
        all_goals
          refine ⟨d₀ ++ d₁, ?_, ?_⟩
        all_goals
          try (rw [hsplit, hdrop, hd₁, List.append_assoc])
        all_goals
          intro e he
        all_goals
          rcases List.mem_append.mp he with h' | h'
        all_goals
          first
          | exact ⟨(ks, vs), List.mem_cons_self _ _, hdlt e h'⟩
          | · obtain ⟨i, hi, hilt⟩ := hlt₁ e h'
              exact ⟨i, List.mem_cons_of_mem _ hi, hilt⟩
      · split at h
        · rename_i hlt
          obtain ⟨d₁, hd₁, hlt₁⟩ := ih _ _ _ _ h
          refine ⟨d₀ ++ (kb, st) :: d₁, ?_, ?_⟩
          · rw [hsplit, hdrop, hd₁]
            simp
          · intro e he
            rcases List.mem_append.mp he with h' | h'
            · exact ⟨(ks, vs), List.mem_cons_self _ _, hdlt e h'⟩
            · rcases List.mem_cons.mp h' with h'' | h''
              · rw [h'']
                exact ⟨(ks, vs), List.mem_cons_self _ _, hlt⟩
              · obtain ⟨i, hi, hilt⟩ := hlt₁ e h''
                exact ⟨i, List.mem_cons_of_mem _ hi, hilt⟩
        · simp at h

end ManagedTopNBottomNState

/-- Whether a tracker entry is a pending Delete of a key present in storage:
the only entries that lower the live-row count below the storage row count. -/
def isDelOn (st : List Nat) (e : Nat × FlushStatus) : Bool :=
  match e.2 with
  | FlushStatus.Delete => decide (e.1 ∈ st)
  | _ => false

/-- The net contribution of one tracker entry to the live-row count relative
to the storage row count: a pending Insert adds a row (also when it
overwrites a storage row, since the separate Insert-not-Upsert state records
that the overwritten slot was separately counted), a pending Upsert adds one
only off storage, a pending Delete removes one only on storage. -/
def delWeight (st : List Nat) (e : Nat × FlushStatus) : Int :=
  match e.2 with
  | FlushStatus.Insert _ => 1
  | FlushStatus.DeleteInsert _ => if e.1 ∈ st then 0 else 1
  | FlushStatus.Delete => if e.1 ∈ st then -1 else 0

/-- Total tracker contribution to the live-row count. -/
def bufWeight (st : List Nat) (b : Buf) : Int :=
  (b.map (delWeight st)).sum

theorem bufWeight_cons (st : List Nat) (e : Nat × FlushStatus) (b : Buf) :
    bufWeight st (e :: b) = delWeight st e + bufWeight st b := by
  simp [bufWeight]

theorem delWeight_ge (st : List Nat) (e : Nat × FlushStatus) :
    (if isDelOn st e then (-1 : Int) else 0) ≤ delWeight st e := by
  obtain ⟨k, fs⟩ := e
  cases fs with
  | Insert r => simp [isDelOn, delWeight]
  | Delete =>
    simp only [isDelOn, delWeight]
    by_cases h : k ∈ st
    · simp [h]
    · simp [h]
  | DeleteInsert r =>
    simp only [isDelOn, delWeight]
    by_cases h : k ∈ st
    · simp [h]
    · simp [h]

theorem bufWeight_ge_neg_delOn (st : List Nat) :
    ∀ (b : Buf), -(((b.filter (isDelOn st)).length : Int)) ≤ bufWeight st b := by
  intro b
  induction b with
  | nil => simp [bufWeight]
  | cons e t ih =>
    rw [bufWeight_cons]
    have h₁ := delWeight_ge st e
    by_cases h : isDelOn st e = true
    · rw [List.filter_cons_of_pos h]
      rw [if_pos h] at h₁
      rw [List.length_cons]
      push_cast
      omega
    · rw [List.filter_cons_of_neg (by simpa using h)]
      rw [if_neg h] at h₁
      omega

theorem bufWeight_ge_of_mem (st : List Nat) {k : Nat} {fs : FlushStatus} :
    ∀ {b : Buf}, PWk b → (k, fs) ∈ b → isDelOn st (k, fs) = false →
      delWeight st (k, fs) - ((b.filter (isDelOn st)).length : Int) ≤
        bufWeight st b := by
  intro b
  induction b with
  | nil => intro _ h _; simp at h
  | cons e t ih =>
    intro hpw hmem hnd
    rw [PWk, List.pairwise_cons] at hpw
    rw [bufWeight_cons]
    rcases List.mem_cons.mp hmem with h' | h'
    · rw [← h']
      rw [List.filter_cons_of_neg (by simpa using hnd)]
      have hW := bufWeight_ge_neg_delOn st t
      omega
    · have hW := ih hpw.2 h' hnd
      have h₁ := delWeight_ge st e
      by_cases h : isDelOn st e = true
      · rw [List.filter_cons_of_pos h]
        rw [if_pos h] at h₁
        rw [List.length_cons]
        push_cast
        omega
      · rw [List.filter_cons_of_neg (by simpa using h)]
        rw [if_neg h] at h₁
        omega

theorem delOn_filter_mem (st : List Nat) (b : Buf) (e : Nat × FlushStatus)
    (he : e ∈ b.filter (isDelOn st)) :
    e.1 ∈ st ∧ e.2 = FlushStatus.Delete := by
  rw [List.mem_filter] at he
  obtain ⟨_, hd⟩ := he
  obtain ⟨k, fs⟩ := e
  cases fs with
  | Insert r => simp [isDelOn] at hd
  | Delete =>
    simp only [isDelOn, decide_eq_true_eq] at hd
    exact ⟨hd, rfl⟩
  | DeleteInsert r => simp [isDelOn] at hd

theorem delOn_keys_nodup (st : List Nat) (b : Buf) (hpw : PWk b) :
    (keys (b.filter (isDelOn st))).Nodup :=
  keys_nodup (List.Pairwise.sublist (List.filter_sublist b) hpw)

theorem delOn_count_le (st : List Nat) (_hnd : st.Nodup) (b : Buf)
    (hpw : PWk b) :
    ((b.filter (isDelOn st)).length : Int) ≤ (st.length : Int) := by
  have hsub : keys (b.filter (isDelOn st)) ⊆ st := by
    intro j hj
    simp only [keys, List.mem_map] at hj
    obtain ⟨e, he, hek⟩ := hj
    rw [← hek]
    exact (delOn_filter_mem st b e he).1
  have hle := (List.subperm_of_subset (delOn_keys_nodup st b hpw) hsub).length_le
  simp only [keys, List.length_map] at hle
  exact_mod_cast hle

theorem delOn_count_le_sub (st : List Nat) (_hnd : st.Nodup) (k : Nat)
    (hk : k ∈ st) (b : Buf) (hpw : PWk b)
    (hnotdel : ¬mapLookup k b = some FlushStatus.Delete) :
    ((b.filter (isDelOn st)).length : Int) ≤ (st.length : Int) - 1 := by
  have hsub : keys (b.filter (isDelOn st)) ⊆ st.erase k := by
    intro j hj
    simp only [keys, List.mem_map] at hj
    obtain ⟨e, he, hek⟩ := hj
    obtain ⟨hjst, hjdel⟩ := delOn_filter_mem st b e he
    have hmem : e ∈ b := (List.filter_sublist b).subset he
    have hlook : mapLookup e.1 b = some FlushStatus.Delete := by
      have : (e.1, FlushStatus.Delete) ∈ b := by
        rw [← hjdel]
        exact hmem
      exact lookup_of_mem_pw hpw this
    have hne : j ≠ k := by
      intro hc
      rw [hek, hc] at hlook
      exact hnotdel hlook
    rw [← hek]
    rw [List.mem_erase_of_ne (by rw [hek]; exact hne)]
    exact hjst
  have hle :=
    (List.subperm_of_subset (delOn_keys_nodup st b hpw) hsub).length_le
  simp only [keys, List.length_map] at hle
  rw [List.length_erase_of_mem hk] at hle
  have hst : 1 ≤ st.length := List.length_pos.mpr (by
    intro hc
    rw [hc] at hk
    simp at hk)
  omega

theorem storage_weight_nonneg (stm : SMap) (b : Buf)
    (hpwSt : PWk stm) (hpwB : PWk b) :
    0 ≤ (stm.length : Int) + bufWeight (keys stm) b := by
  have h₁ := delOn_count_le (keys stm) (keys_nodup hpwSt) b hpwB
  have h₂ := bufWeight_ge_neg_delOn (keys stm) b
  have h₃ : ((keys stm).length : Int) = (stm.length : Int) := by
    simp [keys]
  omega

theorem storage_weight_pos (stm : SMap) (b : Buf) (k : Nat)
    (hpwSt : PWk stm) (hpwB : PWk b)
    (hd : deltaOk b k) (hm : mapLookup k b = none → k ∈ keys stm) :
    1 ≤ (stm.length : Int) + bufWeight (keys stm) b := by
  have hnd : (keys stm).Nodup := keys_nodup hpwSt
  have hklen : ((keys stm).length : Int) = (stm.length : Int) := by simp [keys]
  cases hl : mapLookup k b with
  | none =>
    have hks : k ∈ keys stm := hm hl
    have h₁ := delOn_count_le_sub (keys stm) hnd k hks b hpwB
      (by rw [hl]; simp)
    have h₂ := bufWeight_ge_neg_delOn (keys stm) b
    omega
  | some fs =>
    have hmem : (k, fs) ∈ b := mem_of_mapLookup hl
    cases fs with
    | Insert r =>
      have h₁ := bufWeight_ge_of_mem (keys stm) hpwB hmem
        (by simp [isDelOn])
      have h₂ := delOn_count_le (keys stm) hnd b hpwB
      have h₃ : delWeight (keys stm) (k, FlushStatus.Insert r) = 1 := rfl
      omega
    | Delete =>
      unfold deltaOk at hd
      rw [hl] at hd
      exact hd.elim
    | DeleteInsert r =>
      by_cases hks : k ∈ keys stm
      · have h₁ := bufWeight_ge_of_mem (keys stm) hpwB hmem
          (by simp [isDelOn])
        have h₂ := delOn_count_le_sub (keys stm) hnd k hks b hpwB
          (by rw [hl]; simp)
        have h₃ : delWeight (keys stm) (k, FlushStatus.DeleteInsert r) = 0 := by
          simp [delWeight, hks]
        omega
      · have h₁ := bufWeight_ge_of_mem (keys stm) hpwB hmem
          (by simp [isDelOn])
        have h₂ := delOn_count_le (keys stm) hnd b hpwB
        have h₃ : delWeight (keys stm) (k, FlushStatus.DeleteInsert r) = 1 := by
          simp [delWeight, hks]
        omega

theorem bufWeight_mapInsert_new (st : List Nat) (k : Nat) (fs : FlushStatus) :
    ∀ {b : Buf}, mapLookup k b = none →
      bufWeight st (mapInsert k fs b) =
        delWeight st (k, fs) + bufWeight st b := by
  intro b
  induction b with
  | nil => intro _; simp [mapInsert, bufWeight]
  | cons e t ih =>
    obtain ⟨k₁, v₁⟩ := e
    intro hl
    rw [mapLookup_cons] at hl
    by_cases h₁ : k = k₁
    · rw [if_pos h₁] at hl
      exact absurd hl (by simp)
    · rw [if_neg h₁] at hl
      rw [mapInsert_cons]
      by_cases h₂ : k < k₁
      · rw [if_pos h₂, bufWeight_cons, bufWeight_cons]
      · rw [if_neg h₂, if_neg h₁, bufWeight_cons, bufWeight_cons, ih hl]
        ring

theorem bufWeight_mapInsert_replace (st : List Nat) (k : Nat)
    (fs old : FlushStatus) :
    ∀ {b : Buf}, PWk b → mapLookup k b = some old →
      bufWeight st (mapInsert k fs b) =
        bufWeight st b - delWeight st (k, old) + delWeight st (k, fs) := by
  intro b
  induction b with
  | nil => intro _ hl; simp [mapLookup] at hl
  | cons e t ih =>
    obtain ⟨k₁, v₁⟩ := e
    intro hpw hl
    rw [PWk, List.pairwise_cons] at hpw
    rw [mapLookup_cons] at hl
    by_cases h₁ : k = k₁
    · rw [if_pos h₁] at hl
      rw [Option.some.injEq] at hl
      rw [mapInsert_cons, if_neg (by omega), if_pos h₁,
        bufWeight_cons, bufWeight_cons]
      subst h₁
      rw [hl]
      ring
    · rw [if_neg h₁] at hl
      rw [mapInsert_cons]
      by_cases h₂ : k < k₁
      · have hnone : mapLookup k t = none := by
          rw [mapLookup_none_iff]
          intro p hp
          have := hpw.1 p hp
          omega
        rw [hnone] at hl
        exact absurd hl (by simp)
      · rw [if_neg h₂, if_neg h₁, bufWeight_cons, bufWeight_cons,
          ih hpw.2 hl]
        ring

theorem bufWeight_mapErase (st : List Nat) (k : Nat) (old : FlushStatus) :
    ∀ {b : Buf}, PWk b → mapLookup k b = some old →
      bufWeight st (mapErase k b) =
        bufWeight st b - delWeight st (k, old) := by
  intro b
  induction b with
  | nil => intro _ hl; simp [mapLookup] at hl
  | cons e t ih =>
    obtain ⟨k₁, v₁⟩ := e
    intro hpw hl
    rw [PWk, List.pairwise_cons] at hpw
    rw [mapLookup_cons] at hl
    by_cases h₁ : k = k₁
    · rw [if_pos h₁] at hl
      rw [Option.some.injEq] at hl
      rw [mapErase_cons, if_pos h₁, bufWeight_cons]
      subst h₁
      rw [hl]
      ring
    · rw [if_neg h₁] at hl
      rw [mapErase_cons, if_neg h₁, bufWeight_cons, bufWeight_cons,
        ih hpw.2 hl]
      ring

theorem pw_do_insert {b : Buf} (k v : Nat) (h : PWk b) :
    PWk (FlushStatus.do_insert k v b) := by
  unfold FlushStatus.do_insert
  split <;> exact pw_mapInsert h

theorem pw_do_delete {b : Buf} (k : Nat) (h : PWk b) :
    PWk (FlushStatus.do_delete k b) := by
  unfold FlushStatus.do_delete
  split
  · exact pw_mapInsert h
  · exact pw_mapErase h
  · exact pw_mapInsert h
  · exact pw_mapInsert h

theorem lookup_do_insert_ne (b : Buf) (k v j : Nat) (hne : j ≠ k) :
    mapLookup j (FlushStatus.do_insert k v b) = mapLookup j b := by
  unfold FlushStatus.do_insert
  split <;> exact mapLookup_mapInsert_ne hne

theorem lookup_do_delete_ne (b : Buf) (k j : Nat) (hne : j ≠ k)
    (hpw : PWk b) :
    mapLookup j (FlushStatus.do_delete k b) = mapLookup j b := by
  unfold FlushStatus.do_delete
  split
  · exact mapLookup_mapInsert_ne hne
  · exact mapLookup_mapErase_ne hne hpw
  · exact mapLookup_mapInsert_ne hne
  · exact mapLookup_mapInsert_ne hne

theorem lookup_do_insert_self (b : Buf) (k v : Nat) :
    mapLookup k (FlushStatus.do_insert k v b) =
        some (FlushStatus.Insert v) ∨
      mapLookup k (FlushStatus.do_insert k v b) =
        some (FlushStatus.DeleteInsert v) := by
  unfold FlushStatus.do_insert
  split
  · exact Or.inl mapLookup_mapInsert_self
  · exact Or.inl mapLookup_mapInsert_self
  · exact Or.inr mapLookup_mapInsert_self
  · exact Or.inr mapLookup_mapInsert_self

theorem bufWeight_do_insert (stm : SMap) (b : Buf) (k v : Nat)
    (hpw : PWk b) :
    bufWeight (keys stm) (FlushStatus.do_insert k v b) ≤
      bufWeight (keys stm) b + 1 := by
  unfold FlushStatus.do_insert
  cases hl : mapLookup k b with
  | none =>
    rw [bufWeight_mapInsert_new _ _ _ hl]
    have : delWeight (keys stm) (k, FlushStatus.Insert v) = 1 := rfl
    omega
  | some fs =>
    cases fs with
    | Insert r =>
      rw [bufWeight_mapInsert_replace _ _ _ _ hpw hl]
      have h₁ : delWeight (keys stm) (k, FlushStatus.Insert r) = 1 := rfl
      have h₂ : delWeight (keys stm) (k, FlushStatus.Insert v) = 1 := rfl
      omega
    | Delete =>
      rw [bufWeight_mapInsert_replace _ _ _ _ hpw hl]
      by_cases hk : k ∈ keys stm
      · have h₁ : delWeight (keys stm) (k, FlushStatus.Delete) = -1 := by
          simp [delWeight, hk]
        have h₂ :
            delWeight (keys stm) (k, FlushStatus.DeleteInsert v) = 0 := by
          simp [delWeight, hk]
        omega
      · have h₁ : delWeight (keys stm) (k, FlushStatus.Delete) = 0 := by
          simp [delWeight, hk]
        have h₂ :
            delWeight (keys stm) (k, FlushStatus.DeleteInsert v) = 1 := by
          simp [delWeight, hk]
        omega
    | DeleteInsert r =>
      rw [bufWeight_mapInsert_replace _ _ _ _ hpw hl]
      by_cases hk : k ∈ keys stm
      · have h₁ :
            delWeight (keys stm) (k, FlushStatus.DeleteInsert r) = 0 := by
          simp [delWeight, hk]
        have h₂ :
            delWeight (keys stm) (k, FlushStatus.DeleteInsert v) = 0 := by
          simp [delWeight, hk]
        omega
      · have h₁ :
            delWeight (keys stm) (k, FlushStatus.DeleteInsert r) = 1 := by
          simp [delWeight, hk]
        have h₂ :
            delWeight (keys stm) (k, FlushStatus.DeleteInsert v) = 1 := by
          simp [delWeight, hk]
        omega

theorem bufWeight_do_delete (stm : SMap) (b : Buf) (k : Nat) (hpw : PWk b)
    (hd : deltaOk b k) (hm : mapLookup k b = none → k ∈ keys stm) :
    bufWeight (keys stm) (FlushStatus.do_delete k b) =
      bufWeight (keys stm) b - 1 := by
  unfold FlushStatus.do_delete
  cases hl : mapLookup k b with
  | none =>
    rw [bufWeight_mapInsert_new _ _ _ hl]
    have hk : k ∈ keys stm := hm hl
    have h₁ : delWeight (keys stm) (k, FlushStatus.Delete) = -1 := by
      simp [delWeight, hk]
    omega
  | some fs =>
    cases fs with
    | Insert r =>
      rw [bufWeight_mapErase _ _ _ hpw hl]
      have h₁ : delWeight (keys stm) (k, FlushStatus.Insert r) = 1 := rfl
      omega
    | Delete =>
      unfold deltaOk at hd
      rw [hl] at hd
      exact hd.elim
    | DeleteInsert r =>
      rw [bufWeight_mapInsert_replace _ _ _ _ hpw hl]
      by_cases hk : k ∈ keys stm
      · have h₁ :
            delWeight (keys stm) (k, FlushStatus.DeleteInsert r) = 0 := by
          simp [delWeight, hk]
        have h₂ : delWeight (keys stm) (k, FlushStatus.Delete) = -1 := by
          simp [delWeight, hk]
        omega
      · have h₁ :
            delWeight (keys stm) (k, FlushStatus.DeleteInsert r) = 1 := by
          simp [delWeight, hk]
        have h₂ : delWeight (keys stm) (k, FlushStatus.Delete) = 0 := by
          simp [delWeight, hk]
        omega

theorem keys_take_subset {α : Type} (n : Nat) (l : List (Nat × α)) :
    keys (l.take n) ⊆ keys l := by
  intro j hj
  simp only [keys, List.mem_map] at hj ⊢
  obtain ⟨e, he, hek⟩ := hj
  exact ⟨e, (List.take_sublist n l).subset he, hek⟩

theorem keys_drop_subset {α : Type} (n : Nat) (l : List (Nat × α)) :
    keys (l.drop n) ⊆ keys l := by
  intro j hj
  simp only [keys, List.mem_map] at hj ⊢
  obtain ⟨e, he, hek⟩ := hj
  exact ⟨e, (List.drop_sublist n l).subset he, hek⟩

namespace ManagedTopNBottomNState

/-- The count-conservation invariant: sorted components, every cached key is
live, and the live-row balance (storage rows plus tracker contribution) is
bounded by `total_count`. -/
def InvC6 (s : ManagedTopNBottomNState) : Prop :=
  PWk s.top_n ∧ PWk s.bottom_n ∧ PWk s.flush_buffer ∧ PWk s.storage ∧
  (∀ p ∈ s.top_n, s.effP p.1) ∧ (∀ p ∈ s.bottom_n, s.effP p.1) ∧
  (s.storage.length : Int) + bufWeight (keys s.storage) s.flush_buffer ≤
    s.total_count

theorem insert_flush_buffer (s : ManagedTopNBottomNState) (k v : Nat) :
    (s.insert k v).flush_buffer =
      FlushStatus.do_insert k v s.flush_buffer := by
  unfold insert
  split <;> rfl

theorem insert_total_count (s : ManagedTopNBottomNState) (k v : Nat) :
    (s.insert k v).total_count = s.total_count + 1 := by
  unfold insert
  split <;> rfl

theorem effP_insert (s : ManagedTopNBottomNState) (k v : Nat) :
    ∀ j : Nat, (j = k ∨ s.effP j) → (s.insert k v).effP j := by
  intro j hj
  unfold ManagedTopNBottomNState.effP
  rw [insert_flush_buffer, insert_storage]
  by_cases hjk : j = k
  · subst hjk
    rcases lookup_do_insert_self s.flush_buffer j v with h | h
    · refine ⟨?_, ?_⟩
      · unfold deltaOk; rw [h]; trivial
      · intro hc; rw [h] at hc; exact absurd hc (by simp)
    · refine ⟨?_, ?_⟩
      · unfold deltaOk; rw [h]; trivial
      · intro hc; rw [h] at hc; exact absurd hc (by simp)
  · rcases hj with hj | hj
    · exact absurd hj hjk
    · unfold ManagedTopNBottomNState.effP at hj
      have heq := lookup_do_insert_ne s.flush_buffer k v j hjk
      refine ⟨deltaOk_congr heq.symm hj.1, fun hc => hj.2 ?_⟩
      rw [heq] at hc
      exact hc

theorem invC6_insert (s : ManagedTopNBottomNState) (k v : Nat)
    (h : InvC6 s) :
    InvC6 (s.insert k v) ∧
      (s.insert k v).total_count = s.total_count + 1 := by
  obtain ⟨hT, hB, hF, hSt, heT, heB, hW⟩ := h
  have hcaches :
      ((s.insert k v).top_n = mapInsert k v s.top_n ∧
        (s.insert k v).bottom_n = s.bottom_n) ∨
      ((s.insert k v).top_n = s.top_n ∧
        (s.insert k v).bottom_n = mapInsert k v s.bottom_n) := by
    unfold insert
    split
    · exact Or.inl ⟨rfl, rfl⟩
    · exact Or.inr ⟨rfl, rfl⟩
  have hWnew : ((s.insert k v).storage.length : Int) +
      bufWeight (keys (s.insert k v).storage)
        (s.insert k v).flush_buffer ≤ (s.insert k v).total_count := by
    rw [insert_storage, insert_flush_buffer, insert_total_count]
    have := bufWeight_do_insert s.storage s.flush_buffer k v hF
    omega
  refine ⟨⟨?_, ?_, ?_, ?_, ?_, ?_, hWnew⟩, insert_total_count s k v⟩
  · rcases hcaches with ⟨h₁, _⟩ | ⟨h₁, _⟩
    · rw [h₁]; exact pw_mapInsert hT
    · rw [h₁]; exact hT
  · rcases hcaches with ⟨_, h₂⟩ | ⟨_, h₂⟩
    · rw [h₂]; exact hB
    · rw [h₂]; exact pw_mapInsert hB
  · rw [insert_flush_buffer]; exact pw_do_insert k v hF
  · rw [insert_storage]; exact hSt
  · intro p hp
    rcases hcaches with ⟨h₁, _⟩ | ⟨h₁, _⟩
    · rw [h₁] at hp
      rcases mem_mapInsert hp with h' | h'
      · exact effP_insert s k v p.1 (Or.inl (by rw [h']))
      · exact effP_insert s k v p.1 (Or.inr (heT p h'))
    · rw [h₁] at hp
      exact effP_insert s k v p.1 (Or.inr (heT p hp))
  · intro p hp
    rcases hcaches with ⟨_, h₂⟩ | ⟨_, h₂⟩
    · rw [h₂] at hp
      exact effP_insert s k v p.1 (Or.inr (heB p hp))
    · rw [h₂] at hp
      rcases mem_mapInsert hp with h' | h'
      · exact effP_insert s k v p.1 (Or.inl (by rw [h']))
      · exact effP_insert s k v p.1 (Or.inr (heB p h'))

theorem invC6_scan_empty (s s' : ManagedTopNBottomNState)
    (hT : s.top_n = []) (hB : s.bottom_n = []) (h : InvC6 s)
    (hs : s.scan_and_merge = Except.ok s') :
    InvC6 s' ∧ s'.total_count = s.total_count := by
  obtain ⟨_, _, hF, hSt, _, _, hW⟩ := h
  unfold scan_and_merge at hs
  dsimp only at hs
  rw [hT, hB] at hs
  split at hs
  · simp at hs
  · rename_i b₁ buf₁ h₁
    split at hs
    · simp at hs
    · rename_i t₁ buf₂ h₂
      rw [Except.ok.injEq] at hs
      have hpw1 : PWk (s.storage.take (s.storage.length / 2)) :=
        List.Pairwise.sublist (List.take_sublist _ _) hSt
      have hpw2 : PWk (s.storage.drop (s.storage.length / 2)) :=
        List.Pairwise.sublist (List.drop_sublist _ _) hSt
      obtain ⟨d, hd, hdlt⟩ := ip_suffix _ _ _ _ _ h₁
      have htransfer : ∀ j : Nat,
          j ∈ keys (s.storage.drop (s.storage.length / 2)) →
          mapLookup j s.flush_buffer = mapLookup j buf₁ := by
        intro j hj
        rw [hd]
        refine lookup_append_of_ne fun e he => ?_
        obtain ⟨i, hi, hilt⟩ := hdlt e he
        simp only [keys, List.mem_map] at hj
        obtain ⟨q, hq, hqk⟩ := hj
        have := pw_take_drop_lt hSt (s.storage.length / 2) i hi q hq
        omega
      rw [← hs]
      refine ⟨⟨?_, ?_, hF, hSt, ?_, ?_, hW⟩, rfl⟩
      · exact ip_pw _ _ _ _ _ (by simp [PWk]) h₂
      · exact ip_pw _ _ _ _ _ (by simp [PWk]) h₁
      · intro p hp
        simp only at hp
        rcases ip_sound _ _ _ _ _ hpw2 h₂ p hp with h' | h'
        · simp at h'
        · obtain ⟨hmem, hok⟩ := h'
          unfold ManagedTopNBottomNState.effP
          simp only
          have heq := htransfer p.1 hmem
          refine ⟨deltaOk_congr heq.symm hok, fun _ => ?_⟩
          exact keys_drop_subset _ _ hmem
      · intro p hp
        simp only at hp
        rcases ip_sound _ _ _ _ _ hpw1 h₁ p hp with h' | h'
        · simp at h'
        · obtain ⟨hmem, hok⟩ := h'
          unfold ManagedTopNBottomNState.effP
          simp only
          exact ⟨hok, fun _ => keys_take_subset _ _ hmem⟩

end ManagedTopNBottomNState

namespace ManagedTopNBottomNState

theorem scan_error_kind (s : ManagedTopNBottomNState) (e : PanicKind)
    (h : s.scan_and_merge = Except.error e) : e = PanicKind.mergePanic := by
  unfold scan_and_merge at h
  dsimp only at h
  split at h
  · rw [Except.error.injEq] at h
    exact h.symm
  · split at h
    · rw [Except.error.injEq] at h
      exact h.symm
    · simp at h

theorem effP_of_cached (s : ManagedTopNBottomNState) (k : Nat)
    (heT : ∀ p ∈ s.top_n, s.effP p.1) (heB : ∀ p ∈ s.bottom_n, s.effP p.1)
    (hassert : ¬(mapLookup k s.top_n = none ∧
      mapLookup k s.bottom_n = none)) : s.effP k := by
  by_cases hlt : mapLookup k s.top_n = none
  · cases hlb : mapLookup k s.bottom_n with
    | none => exact absurd ⟨hlt, hlb⟩ hassert
    | some v => exact heB (k, v) (mem_of_mapLookup hlb)
  · cases hlt' : mapLookup k s.top_n with
    | none => exact absurd hlt' hlt
    | some v => exact heT (k, v) (mem_of_mapLookup hlt')

theorem invC6_delete (s s' : ManagedTopNBottomNState) (k : Nat)
    (r : Option Nat) (h : InvC6 s) (hd : s.delete k = Except.ok (s', r)) :
    InvC6 s' ∧ s'.total_count = s.total_count - 1 := by
  obtain ⟨hT, hB, hF, hSt, heT, heB, hW⟩ := h
  unfold delete at hd
  dsimp only at hd
  split at hd
  · simp at hd
  · rename_i hassert
    split at hd
    · simp at hd
    · rename_i hpos
      have hkeff : s.effP k := effP_of_cached s k heT heB hassert
      unfold ManagedTopNBottomNState.effP at hkeff
      have hWd := bufWeight_do_delete s.storage s.flush_buffer k hF
        hkeff.1 hkeff.2
      have hInv₁ : InvC6
          { top_n := mapErase k s.top_n,
            bottom_n := mapErase k s.bottom_n,
            flush_buffer := FlushStatus.do_delete k s.flush_buffer,
            total_count := s.total_count - 1,
            top_n_count := s.top_n_count,
            bottom_n_count := s.bottom_n_count,
            storage := s.storage } := by
        refine ⟨pw_mapErase hT, pw_mapErase hB, pw_do_delete k hF, hSt,
          ?_, ?_, ?_⟩
        · intro p hp
          simp only at hp
          obtain ⟨hmem, hne⟩ := mem_mapErase hT hp
          have hpe := heT p hmem
          unfold ManagedTopNBottomNState.effP at hpe ⊢
          simp only
          have heq := lookup_do_delete_ne s.flush_buffer k p.1 hne hF
          refine ⟨deltaOk_congr heq.symm hpe.1, fun hc => hpe.2 ?_⟩
          rw [heq] at hc
          exact hc
        · intro p hp
          simp only at hp
          obtain ⟨hmem, hne⟩ := mem_mapErase hB hp
          have hpe := heB p hmem
          unfold ManagedTopNBottomNState.effP at hpe ⊢
          simp only
          have heq := lookup_do_delete_ne s.flush_buffer k p.1 hne hF
          refine ⟨deltaOk_congr heq.symm hpe.1, fun hc => hpe.2 ?_⟩
          rw [heq] at hc
          exact hc
        · simp only
          rw [hWd]
          omega
      split at hd
      · rename_i hcond
        split at hd
        · simp at hd
        · rename_i s₂ hscan
          rw [Except.ok.injEq, Prod.mk.injEq] at hd
          obtain ⟨hs₂, _⟩ := hd
          rw [← hs₂]
          have hres := invC6_scan_empty _ s₂ hcond.1 hcond.2.1 hInv₁ hscan
          exact ⟨hres.1, by rw [hres.2]⟩
      · rw [Except.ok.injEq, Prod.mk.injEq] at hd
        obtain ⟨hs₁, _⟩ := hd
        rw [← hs₁]
        exact ⟨hInv₁, rfl⟩

theorem delete_no_underflow (s : ManagedTopNBottomNState) (k : Nat)
    (h : InvC6 s) : s.delete k ≠ Except.error PanicKind.underflow := by
  obtain ⟨hT, hB, hF, hSt, heT, heB, hW⟩ := h
  unfold delete
  dsimp only
  split
  · simp
  · rename_i hassert
    split
    · rename_i hle
      exfalso
      have hkeff : s.effP k := effP_of_cached s k heT heB hassert
      unfold ManagedTopNBottomNState.effP at hkeff
      have := storage_weight_pos s.storage s.flush_buffer k hSt hF
        hkeff.1 hkeff.2
      omega
    · split
      · split
        · rename_i e hscan
          have := scan_error_kind _ e hscan
          rw [this]
          simp
        · simp
      · simp

end ManagedTopNBottomNState

/-- The operation alphabet of the count-conservation claim: the `insert` and
`delete` calls issued to the managed state. -/
inductive COp : Type
  | cins : Nat → Nat → COp
  | cdel : Nat → COp
deriving DecidableEq, Repr

/-- Apply a sequence of insert/delete calls, stopping at the first panic. -/
def runOps : List COp → ManagedTopNBottomNState →
    Except PanicKind ManagedTopNBottomNState
  | [], s => Except.ok s
  | COp.cins k v :: rest, s => runOps rest (s.insert k v)
  | COp.cdel k :: rest, s =>
    match s.delete k with
    | Except.ok (s₁, _) => runOps rest s₁
    | Except.error e => Except.error e

/-- Number of insert calls in a sequence. -/
def nIns : List COp → Nat
  | [] => 0
  | COp.cins _ _ :: rest => nIns rest + 1
  | COp.cdel _ :: rest => nIns rest

/-- Number of delete calls in a sequence. -/
def nDel : List COp → Nat
  | [] => 0
  | COp.cins _ _ :: rest => nDel rest
  | COp.cdel _ :: rest => nDel rest + 1

theorem runOps_spec :
    ∀ (ops : List COp) (s : ManagedTopNBottomNState),
      ManagedTopNBottomNState.InvC6 s →
      (runOps ops s ≠ Except.error PanicKind.underflow) ∧
      (∀ s', runOps ops s = Except.ok s' →
        ManagedTopNBottomNState.InvC6 s' ∧
        s'.total_count = s.total_count + (nIns ops : Int) - (nDel ops : Int)) := by
  intro ops
  induction ops with
  | nil =>
    intro s h
    refine ⟨by simp [runOps], ?_⟩
    intro s' hs'
    simp only [runOps, Except.ok.injEq] at hs'
    rw [← hs']
    exact ⟨h, by simp [nIns, nDel]⟩
  | cons op rest ih =>
    intro s h
    cases op with
    | cins k v =>
      obtain ⟨hinv, hcnt⟩ := ManagedTopNBottomNState.invC6_insert s k v h
      have hrec := ih (s.insert k v) hinv
      refine ⟨by simpa [runOps] using hrec.1, ?_⟩
      intro s' hs'
      simp only [runOps] at hs'
      obtain ⟨hi, hc⟩ := hrec.2 s' hs'
      refine ⟨hi, ?_⟩
      rw [hc, hcnt]
      simp only [nIns, nDel]
      push_cast
      ring
    | cdel k =>
      constructor
      · simp only [runOps]
        split
        · rename_i s₁ r hdel
          obtain ⟨hi₁, _⟩ :=
            ManagedTopNBottomNState.invC6_delete s s₁ k r h hdel
          exact (ih s₁ hi₁).1
        · rename_i e hdel
          intro hc
          rw [Except.error.injEq] at hc
          rw [hc] at hdel
          exact ManagedTopNBottomNState.delete_no_underflow s k h hdel
      · intro s' hs'
        simp only [runOps] at hs'
        split at hs'
        · rename_i s₁ r hdel
          obtain ⟨hi₁, hc₁⟩ :=
            ManagedTopNBottomNState.invC6_delete s s₁ k r h hdel
          obtain ⟨hi, hc⟩ := (ih s₁ hi₁).2 s' hs'
          refine ⟨hi, ?_⟩
          rw [hc, hc₁]
          simp only [nIns, nDel]
          push_cast
          ring
        · simp at hs'

theorem invC6_new (cs : Option Nat) (c : Nat) (st : SMap) (hpw : PWk st)
    (hlen : st.length = c) :
    ManagedTopNBottomNState.InvC6 (ManagedTopNBottomNState.new cs c st) := by
  refine ⟨by simp [ManagedTopNBottomNState.new, PWk],
    by simp [ManagedTopNBottomNState.new, PWk],
    by simp [ManagedTopNBottomNState.new, PWk], hpw, ?_, ?_, ?_⟩
  · intro p hp
    simp [ManagedTopNBottomNState.new] at hp
  · intro p hp
    simp [ManagedTopNBottomNState.new] at hp
  · show (st.length : Int) + bufWeight (keys st) [] ≤ (c : Int)
    simp [bufWeight]
    omega

/-! ## C6 -/

/-- C6: confirmed.  From a state constructed with recovered count c over a
storage holding exactly those c rows, any sequence of insert calls and
successful delete calls satisfies total_count = c + n − m exactly (n inserts,
m deletes, integer arithmetic, so the count also never goes negative); no
such sequence can make the count underflow (the `usize` decrement in
`delete` never panics); and deleting a key cached in neither cache — in
particular one present in neither cache nor accounted for in storage — hits
`delete`'s `debug_assert!` and aborts rather than silently doing nothing. -/
theorem C6_count_conservation (c : Nat) (st : SMap) (ops : List COp)
    (hpw : PWk st) (hlen : st.length = c) :
    (∀ s' : ManagedTopNBottomNState,
        runOps ops (ManagedTopNBottomNState.new none c st) = Except.ok s' →
        s'.total_count = (c : Int) + (nIns ops : Int) - (nDel ops : Int) ∧
          0 ≤ s'.total_count) ∧
    runOps ops (ManagedTopNBottomNState.new none c st) ≠
      Except.error PanicKind.underflow ∧
    (∀ (t : ManagedTopNBottomNState) (k : Nat),
        mapLookup k t.top_n = none → mapLookup k t.bottom_n = none →
        t.delete k = Except.error PanicKind.assertFail) := by
  have hinv := invC6_new none c st hpw hlen
  have hspec := runOps_spec ops _ hinv
  refine ⟨?_, hspec.1, ?_⟩
  · intro s' hs'
    obtain ⟨hi, hc⟩ := hspec.2 s' hs'
    refine ⟨by rw [hc]; rfl, ?_⟩
    obtain ⟨_, _, hF', hSt', _, _, hW'⟩ := hi
    have := storage_weight_nonneg s'.storage s'.flush_buffer hSt' hF'
    omega
  · intro t k h₁ h₂
    unfold ManagedTopNBottomNState.delete
    dsimp only
    rw [if_pos ⟨h₁, h₂⟩]

/-- Witness for C6 at the concrete run: recovered count 1 over storage
[(1, 10)], then insert key 2, delete key 2 (which triggers a successful
reconciliation), delete key 1; the final count is 1 + 1 − 2 = 0. -/
theorem C6_count_conservation_witness :
    (⟨[], [], [(1, FlushStatus.Delete)], 0, none, none, [(1, 10)]⟩ :
        ManagedTopNBottomNState).total_count =
      ((1 : Nat) : Int) + ((nIns [COp.cins 2 20, COp.cdel 2, COp.cdel 1] :
        Nat) : Int) - ((nDel [COp.cins 2 20, COp.cdel 2, COp.cdel 1] :
        Nat) : Int) ∧
    (0 : Int) ≤ (⟨[], [], [(1, FlushStatus.Delete)], 0, none, none,
        [(1, 10)]⟩ : ManagedTopNBottomNState).total_count :=
  (C6_count_conservation 1 [(1, 10)]
      [COp.cins 2 20, COp.cdel 2, COp.cdel 1] (by decide) (by decide)).1
    _ (by decide)
